import Mathlib

/-!
Verification development for the email-template-automation repository.

The repository is a collection of per-newsletter build scripts
(`build.js`, `build-geopolitical-summary.js`, `build-dubai-summary.js`,
`build-london-summary.js`, and a minimal `build.js` variant) that

  * parse a converted HTML document,
  * locate heading markers and walk sibling nodes collecting section content,
  * sanitize and restyle inline HTML, and
  * substitute rendered fragments into `{{%NAME%}}` tokens of MJML templates.

This file gives a shallow embedding of those pure parts:

  * strings are `String` / `List Char`; the JavaScript regexes used by the
    code (`/\s+/g`, the dash class, the token regexes, `/\bAQI\b/i`,
    `/\.docx$/i`) are embedded as explicit character scanners;
  * the parsed HTML document is a tree type `HNode`; a document is the list
    of top-level sibling nodes (the converter emits a flat body, and the
    walks only ever use sibling navigation);
  * `String.prototype.replace` with a global token regex is embedded as a
    left-to-right scanner including the `$`-escape expansion the JavaScript
    runtime applies to the replacement string;
  * cheerio operations are embedded by their effect on the tree
    (`.next()` skips text nodes, `.attr` overwrites, `.replaceWith` on a
    detached node is a no-op, `.find("*")` snapshots in document order).

File I/O, the DOCX converter and the MJML compiler are external to every
claim and are modelled as function parameters (template file contents,
document forests).
-/

namespace ETA

/-! ## Character utilities (`normalizeDashes`, `cleanText`)

`build.js` lines 771-777 (identical in every builder):

  function normalizeDashes(s) \x7b
    return (s || "").replace(/‐|‑|‒|–|—|−/g, "-");
  \x7d
  function cleanText(s) \x7b
    return normalizeDashes((s || "").replace(/\s+/g, " ").trim());
  \x7d
-/

/-- Character class of the JavaScript regex `\s` (also the set trimmed by
`String.prototype.trim`): space, tab, line terminators, and the Unicode
space separators. -/
def isJsWs (c : Char) : Bool :=
  c.toNat = 32 || c.toNat = 9 || c.toNat = 10 || c.toNat = 13 ||
  c.toNat = 11 || c.toNat = 12 ||
  c.toNat = 0xa0 || c.toNat = 0x1680 ||
  (0x2000 ≤ c.toNat && c.toNat ≤ 0x200a) ||
  c.toNat = 0x2028 || c.toNat = 0x2029 || c.toNat = 0x202f ||
  c.toNat = 0x205f || c.toNat = 0x3000 || c.toNat = 0xfeff

/-- Character class of the dash regex in `normalizeDashes`:
U+2010, U+2011, U+2012, U+2013, U+2014, U+2212. -/
def isDashChar (c : Char) : Bool :=
  c.toNat = 0x2010 || c.toNat = 0x2011 || c.toNat = 0x2012 ||
  c.toNat = 0x2013 || c.toNat = 0x2014 || c.toNat = 0x2212

/-- Replacement performed by `normalizeDashes` on one character. -/
def dashFix (c : Char) : Char :=
  if isDashChar c then '-' else c

/-- List-level `normalizeDashes`. -/
def normalizeDashesL (l : List Char) : List Char :=
  l.map dashFix

/-- The `normalizeDashes` utility shared by every builder. -/
def normalizeDashes (s : String) : String :=
  ⟨normalizeDashesL s.data⟩

/-- Effect of `.replace(/\s+/g, " ")`: every maximal run of whitespace
characters becomes a single space. -/
def collapseWs : List Char → List Char
  | [] => []
  | [c] => if isJsWs c then [' '] else [c]
  | c :: c' :: cs =>
    if isJsWs c then
      if isJsWs c' then collapseWs (c' :: cs)
      else ' ' :: collapseWs (c' :: cs)
    else c :: collapseWs (c' :: cs)

/-- Effect of `String.prototype.trim`: drop leading and trailing
whitespace. -/
def trimL (l : List Char) : List Char :=
  ((l.dropWhile isJsWs).reverse.dropWhile isJsWs).reverse

/-- List-level `cleanText`: collapse whitespace runs, trim, then normalize
dashes — exactly the order of the JavaScript expression. -/
def cleanTextL (l : List Char) : List Char :=
  normalizeDashesL (trimL (collapseWs l))

/-- The `cleanText` utility shared by every builder. -/
def cleanText (s : String) : String :=
  ⟨cleanTextL s.data⟩

/-! ### Properties of the characters involved -/

theorem isJsWs_of_isDashChar {c : Char} (h : isDashChar c = true) :
    isJsWs c = false := by
  by_contra hw
  rw [Bool.not_eq_false] at hw
  simp only [isDashChar, Bool.or_eq_true, decide_eq_true_eq] at h
  simp only [isJsWs, Bool.or_eq_true, Bool.and_eq_true,
    decide_eq_true_eq] at hw
  omega

theorem isDashChar_dashFix (c : Char) : isDashChar (dashFix c) = false := by
  unfold dashFix
  by_cases h : isDashChar c = true
  · simp only [h, if_true]
    decide
  · simp only [Bool.not_eq_true] at h
    simp [h]

theorem isJsWs_dashFix (c : Char) : isJsWs (dashFix c) = isJsWs c := by
  unfold dashFix
  by_cases h : isDashChar c = true
  · simp only [h, if_true]
    rw [isJsWs_of_isDashChar h]
    decide
  · simp only [Bool.not_eq_true] at h
    simp [h]

theorem dashFix_eq_self {c : Char} (h : isDashChar c = false) :
    dashFix c = c := by
  simp [dashFix, h]

/-! ### Properties of `collapseWs` -/

/-- Whitespace pair relation: two adjacent characters are never both
whitespace. -/
def NoWsPair (a b : Char) : Prop := ¬(isJsWs a = true ∧ isJsWs b = true)

theorem collapseWs_cons_not_ws {c : Char} (h : isJsWs c = false)
    (t : List Char) : collapseWs (c :: t) = c :: collapseWs t := by
  cases t with
  | nil => simp [collapseWs, h]
  | cons c' cs => simp [collapseWs, h]

theorem mem_collapseWs_ws (l : List Char) :
    ∀ c ∈ collapseWs l, isJsWs c = true → c = ' ' := by
  induction l with
  | nil => intro c hc; simp [collapseWs] at hc
  | cons a t ih =>
    cases t with
    | nil =>
      intro c hc hws
      by_cases ha : isJsWs a = true
      · simp [collapseWs, ha] at hc
        simp [hc]
      · simp only [Bool.not_eq_true] at ha
        simp [collapseWs, ha] at hc
        subst hc
        rw [ha] at hws
        exact absurd hws (by simp)
    | cons b s =>
      intro c hc hws
      by_cases ha : isJsWs a = true
      · by_cases hb : isJsWs b = true
        · rw [show collapseWs (a :: b :: s) = collapseWs (b :: s) by
            simp [collapseWs, ha, hb]] at hc
          exact ih c hc hws
        · simp only [Bool.not_eq_true] at hb
          rw [show collapseWs (a :: b :: s) = ' ' :: collapseWs (b :: s) by
            simp [collapseWs, ha, hb]] at hc
          rcases List.mem_cons.mp hc with hc | hc
          · exact hc
          · exact ih c hc hws
      · simp only [Bool.not_eq_true] at ha
        rw [show collapseWs (a :: b :: s) = a :: collapseWs (b :: s) by
          simp [collapseWs, ha]] at hc
        rcases List.mem_cons.mp hc with hc | hc
        · subst hc; rw [ha] at hws; exact absurd hws (by simp)
        · exact ih c hc hws

theorem chain'_collapseWs (l : List Char) :
    List.Chain' NoWsPair (collapseWs l) := by
  induction l with
  | nil => simp [collapseWs]
  | cons a t ih =>
    cases t with
    | nil =>
      by_cases ha : isJsWs a = true <;> simp [collapseWs, ha]
    | cons b s =>
      by_cases ha : isJsWs a = true
      · by_cases hb : isJsWs b = true
        · rw [show collapseWs (a :: b :: s) = collapseWs (b :: s) by
            simp [collapseWs, ha, hb]]
          exact ih
        · simp only [Bool.not_eq_true] at hb
          rw [show collapseWs (a :: b :: s) = ' ' :: collapseWs (b :: s) by
            simp [collapseWs, ha, hb], collapseWs_cons_not_ws hb]
          rw [collapseWs_cons_not_ws hb] at ih
          exact List.Chain'.cons (by simp [NoWsPair, hb]) ih
      · simp only [Bool.not_eq_true] at ha
        rw [collapseWs_cons_not_ws ha]
        refine (List.chain'_cons'.mpr ⟨?_, ih⟩)
        intro y _
        simp [NoWsPair, ha]

theorem collapseWs_eq_self (l : List Char)
    (hsp : ∀ c ∈ l, isJsWs c = true → c = ' ')
    (hch : List.Chain' NoWsPair l) : collapseWs l = l := by
  induction l with
  | nil => rfl
  | cons a t ih =>
    cases t with
    | nil =>
      by_cases ha : isJsWs a = true
      · have := hsp a (by simp) ha
        simp [collapseWs, ha, this]
      · simp only [Bool.not_eq_true] at ha
        simp [collapseWs, ha]
    | cons b s =>
      by_cases ha : isJsWs a = true
      · have hb : isJsWs b = false := by
          have := (List.chain'_cons.mp hch).1
          simp only [NoWsPair, not_and] at this
          by_contra hb
          simp only [Bool.not_eq_false] at hb
          exact (this ha) hb
        have haSp := hsp a (by simp) ha
        rw [show collapseWs (a :: b :: s) = ' ' :: collapseWs (b :: s) by
          simp [collapseWs, ha, hb]]
        rw [ih (fun c hc => hsp c (by simp [hc]))
          (List.chain'_cons.mp hch).2, haSp]
      · simp only [Bool.not_eq_true] at ha
        rw [collapseWs_cons_not_ws ha,
          ih (fun c hc => hsp c (by simp [hc])) (List.chain'_cons.mp hch).2]

/-! ### Properties of `trimL` -/

theorem dropWhile_head?_not {p : Char → Bool} :
    ∀ (l : List Char) (c : Char), (l.dropWhile p).head? = some c →
      p c = false := by
  intro l
  induction l with
  | nil => intro c h; simp [List.dropWhile] at h
  | cons a t ih =>
    intro c h
    by_cases ha : p a = true
    · rw [List.dropWhile_cons_of_pos ha] at h
      exact ih c h
    · simp only [Bool.not_eq_true] at ha
      rw [List.dropWhile_cons_of_neg (by simp [ha])] at h
      simp only [List.head?_cons, Option.some.injEq] at h
      subst h; exact ha

theorem dropWhile_eq_self_of_head {p : Char → Bool} (l : List Char)
    (h : ∀ c ∈ l.head?, p c = false) : l.dropWhile p = l := by
  cases l with
  | nil => rfl
  | cons a t =>
    have : p a = false := h a (by simp)
    rw [List.dropWhile_cons_of_neg (by simp [this])]

theorem trimL_head? (l : List Char) :
    ∀ c ∈ (trimL l).head?, isJsWs c = false := by
  intro c hc
  unfold trimL at hc
  set m := l.dropWhile isJsWs with hm
  obtain ⟨pre, hpre⟩ :
      (m.reverse.dropWhile isJsWs) <:+ m.reverse :=
    List.dropWhile_suffix isJsWs
  have hm2 : m = (m.reverse.dropWhile isJsWs).reverse ++ pre.reverse := by
    have h := congrArg List.reverse hpre
    simpa using h.symm
  have hmh : m.head? = some c := by
    rw [hm2]
    cases hrr : (m.reverse.dropWhile isJsWs).reverse with
    | nil => rw [hrr] at hc; simp at hc
    | cons d ds =>
      rw [hrr] at hc
      simp only [List.head?_cons, Option.mem_def, Option.some.injEq] at hc
      simp [hc]
  exact dropWhile_head?_not l c hmh

theorem trimL_getLast? (l : List Char) :
    ∀ c ∈ (trimL l).getLast?, isJsWs c = false := by
  intro c hc
  unfold trimL at hc
  rw [List.getLast?_reverse] at hc
  exact dropWhile_head?_not _ c hc

theorem trimL_sublist (l : List Char) : List.Sublist (trimL l) l := by
  unfold trimL
  have h1 : List.Sublist ((l.dropWhile isJsWs).reverse.dropWhile isJsWs)
      (l.dropWhile isJsWs).reverse := (List.dropWhile_suffix _).sublist
  have h2 : List.Sublist
      (((l.dropWhile isJsWs).reverse.dropWhile isJsWs).reverse)
      (l.dropWhile isJsWs) := by
    simpa using h1.reverse
  exact h2.trans (List.dropWhile_suffix _).sublist

theorem chain'_trimL (l : List Char) (h : List.Chain' NoWsPair l) :
    List.Chain' NoWsPair (trimL l) := by
  unfold trimL
  have h1 : List.Chain' NoWsPair (l.dropWhile isJsWs) :=
    h.suffix (List.dropWhile_suffix _)
  have h2 : List.Chain' (flip NoWsPair) (l.dropWhile isJsWs).reverse := by
    rw [List.chain'_reverse]
    exact h1.imp (fun a b hab => by
      simp only [flip, NoWsPair, not_and] at hab ⊢
      intro hb ha; exact hab hb ha)
  have h3 : List.Chain' (flip NoWsPair)
      ((l.dropWhile isJsWs).reverse.dropWhile isJsWs) :=
    h2.suffix (List.dropWhile_suffix _)
  rw [List.chain'_reverse]
  exact h3.imp (fun a b hab => by
    simp only [flip, NoWsPair, not_and] at hab ⊢
    intro hb ha; exact hab hb ha)

theorem trimL_eq_self (l : List Char)
    (hh : ∀ c ∈ l.head?, isJsWs c = false)
    (hl : ∀ c ∈ l.getLast?, isJsWs c = false) : trimL l = l := by
  unfold trimL
  rw [dropWhile_eq_self_of_head l hh]
  rw [dropWhile_eq_self_of_head l.reverse (by
    intro c hc
    rw [List.head?_reverse] at hc
    exact hl c hc)]
  exact List.reverse_reverse l

/-! ### Properties of `normalizeDashesL` -/

theorem normalizeDashesL_no_dash (l : List Char) :
    ∀ c ∈ normalizeDashesL l, isDashChar c = false := by
  intro c hc
  obtain ⟨a, _, rfl⟩ := List.mem_map.mp hc
  exact isDashChar_dashFix a

theorem normalizeDashesL_eq_self (l : List Char)
    (h : ∀ c ∈ l, isDashChar c = false) : normalizeDashesL l = l := by
  unfold normalizeDashesL
  induction l with
  | nil => rfl
  | cons a t ih =>
    simp only [List.map_cons]
    rw [dashFix_eq_self (h a (by simp)), ih (fun c hc => h c (by simp [hc]))]

theorem chain'_normalizeDashesL (l : List Char)
    (h : List.Chain' NoWsPair l) :
    List.Chain' NoWsPair (normalizeDashesL l) := by
  unfold normalizeDashesL
  rw [List.chain'_map]
  exact h.imp (fun a b hab => by
    simp only [NoWsPair, isJsWs_dashFix] at *
    exact hab)

theorem mem_normalizeDashesL_ws (l : List Char)
    (h : ∀ c ∈ l, isJsWs c = true → c = ' ') :
    ∀ c ∈ normalizeDashesL l, isJsWs c = true → c = ' ' := by
  intro c hc hws
  obtain ⟨a, ha, rfl⟩ := List.mem_map.mp hc
  rw [isJsWs_dashFix] at hws
  have := h a ha hws
  rw [this, dashFix_eq_self (by decide)]

/-! ### The combined facts about `cleanTextL` output -/

theorem cleanTextL_ws_space (l : List Char) :
    ∀ c ∈ cleanTextL l, isJsWs c = true → c = ' ' := by
  unfold cleanTextL
  exact mem_normalizeDashesL_ws _ (fun c hc =>
    mem_collapseWs_ws l c ((trimL_sublist _).subset hc))

theorem cleanTextL_chain' (l : List Char) :
    List.Chain' NoWsPair (cleanTextL l) :=
  chain'_normalizeDashesL _ (chain'_trimL _ (chain'_collapseWs l))

theorem cleanTextL_no_dash (l : List Char) :
    ∀ c ∈ cleanTextL l, isDashChar c = false :=
  normalizeDashesL_no_dash _

theorem cleanTextL_head? (l : List Char) :
    ∀ c ∈ (cleanTextL l).head?, isJsWs c = false := by
  intro c hc
  unfold cleanTextL normalizeDashesL at hc
  rw [List.head?_map, Option.mem_def, Option.map_eq_some'] at hc
  obtain ⟨a, ha, rfl⟩ := hc
  rw [isJsWs_dashFix]
  exact trimL_head? (collapseWs l) a ha

theorem cleanTextL_getLast? (l : List Char) :
    ∀ c ∈ (cleanTextL l).getLast?, isJsWs c = false := by
  intro c hc
  unfold cleanTextL normalizeDashesL at hc
  rw [← List.head?_reverse, ← List.map_reverse, List.head?_map,
    Option.mem_def, Option.map_eq_some'] at hc
  obtain ⟨a, ha, rfl⟩ := hc
  rw [isJsWs_dashFix]
  exact trimL_getLast? (collapseWs l) a
    (by rw [Option.mem_def, ← List.head?_reverse]; exact ha)

theorem cleanTextL_idem (l : List Char) :
    cleanTextL (cleanTextL l) = cleanTextL l := by
  have e1 : collapseWs (cleanTextL l) = cleanTextL l :=
    collapseWs_eq_self _ (cleanTextL_ws_space l) (cleanTextL_chain' l)
  have e2 : trimL (cleanTextL l) = cleanTextL l :=
    trimL_eq_self _ (cleanTextL_head? l) (cleanTextL_getLast? l)
  have e3 : normalizeDashesL (cleanTextL l) = cleanTextL l :=
    normalizeDashesL_eq_self _ (cleanTextL_no_dash l)
  calc cleanTextL (cleanTextL l)
      = normalizeDashesL (trimL (collapseWs (cleanTextL l))) := rfl
    _ = cleanTextL l := by rw [e1, e2, e3]

/-- C9: the text normalizer `cleanText` is idempotent —
`cleanText (cleanText s) = cleanText s` for every string `s` — and its
output contains none of the dash code points U+2010, U+2011, U+2012,
U+2013, U+2014, U+2212, has no leading or trailing whitespace, and
contains no run of two or more consecutive whitespace characters
(adjacent characters are never both whitespace). -/
theorem cleanText_idempotent_and_normalized (s : String) :
    cleanText (cleanText s) = cleanText s
    ∧ (∀ c ∈ (cleanText s).data, isDashChar c = false)
    ∧ (∀ c ∈ (cleanText s).data.head?, isJsWs c = false)
    ∧ (∀ c ∈ (cleanText s).data.getLast?, isJsWs c = false)
    ∧ List.Chain' NoWsPair (cleanText s).data := by
  have hdata : (cleanText s).data = cleanTextL s.data := rfl
  refine ⟨?_, ?_, ?_, ?_, ?_⟩
  · show String.mk (cleanTextL (cleanText s).data) = String.mk (cleanTextL s.data)
    rw [hdata, cleanTextL_idem]
  · rw [hdata]; exact cleanTextL_no_dash s.data
  · rw [hdata]; exact cleanTextL_head? s.data
  · rw [hdata]; exact cleanTextL_getLast? s.data
  · rw [hdata]; exact cleanTextL_chain' s.data

/-! ## Token substitution

`build.js` lines 58-73 define the placeholder regexes, all of the form
`/\x7b\x7b\%\s*NAME\s*\%\x7d\x7d/g`, and lines 175-181 substitute by
chained `String.prototype.replace` calls, e.g.

  const finalMjml = layoutMjml
    .replace(TOKEN_IN_THIS_EDITION, inThisEditionMjml)
    .replace(TOKEN_SPOTLIGHT_SECTIONS, spotlightSectionsMjml)
    ...

`String.prototype.replace` with a global regex finds the non-overlapping
leftmost matches in the original string and splices in the replacement;
the replacement string itself is never rescanned, but the runtime expands
the escapes `$$`, `$&`, the backquote and quote forms (preceding and
following text) inside it; with zero capture groups `$<digit>` stays
literal.  `matchToken` embeds the token regex (greedy `\s*`, which for the
repository's names — nonempty, not starting with whitespace — agrees with
the backtracking regex), `expandDollar` embeds GetSubstitution, and
`substTokGo` embeds the scan. -/

/-- Test used by the token regexes and by `String.prototype.trim`. -/
def allWsL (l : List Char) : Bool := l.all isJsWs

/-- Splits off the longest whitespace prefix (the greedy `\s*`). -/
def spanWs : List Char → List Char × List Char
  | [] => ([], [])
  | c :: cs =>
    if isJsWs c then ((spanWs cs).1.cons c, (spanWs cs).2)
    else ([], c :: cs)

/-- Literal prefix matching. -/
def stripPrefixL : List Char → List Char → Option (List Char)
  | [], l => some l
  | _ :: _, [] => none
  | p :: ps, c :: cs => if p = c then stripPrefixL ps cs else none

/-- Opening delimiter of a placeholder token. -/
def openTok : List Char := ['{', '{', '%']

/-- Closing delimiter of a placeholder token. -/
def closeTok : List Char := ['%', '}', '}']

/-- Matches the token regex at the head of `l`; on success returns the
matched text and the remainder. -/
def matchToken (name : String) (l : List Char) :
    Option (List Char × List Char) :=
  (stripPrefixL openTok l).bind fun l1 =>
    (stripPrefixL name.data (spanWs l1).2).bind fun l3 =>
      (stripPrefixL closeTok (spanWs l3).2).map fun l5 =>
        (openTok ++ (spanWs l1).1 ++ name.data ++ (spanWs l3).1 ++
          closeTok, l5)

/-- The dollar sign. -/
def dollarChar : Char := '$'

/-- The backquote character (code point 96). -/
def bqChar : Char := Char.ofNat 96

/-- The single-quote character (code point 39). -/
def aposChar : Char := Char.ofNat 39

/-- GetSubstitution of the JavaScript runtime, for a regex with zero
capture groups: expands the dollar escapes in the replacement string,
where `matched` is the matched token text, `before` the part of the
original string before the match and `after` the part after it. -/
def expandDollar (before matched after : List Char) : List Char → List Char
  | [] => []
  | [c] => [c]
  | c :: d :: rest =>
    if c = dollarChar then
      if d = dollarChar then dollarChar :: expandDollar before matched after rest
      else if d = '&' then matched ++ expandDollar before matched after rest
      else if d = bqChar then before ++ expandDollar before matched after rest
      else if d = aposChar then after ++ expandDollar before matched after rest
      else c :: expandDollar before matched after (d :: rest)
    else c :: expandDollar before matched after (d :: rest)

/-- Left-to-right scan of `String.prototype.replace` with a global token
regex: `done` is the already-scanned prefix of the original string, and a
positive `skip` counter walks over the remainder of an emitted match (so
replacement text is never rescanned). -/
def substTokGo (name : String) (frag : List Char) :
    List Char → List Char → Nat → List Char
  | _, [], _ => []
  | done, c :: cs, k + 1 => substTokGo name frag (done ++ [c]) cs k
  | done, c :: cs, 0 =>
    match matchToken name (c :: cs) with
    | some (m, rest) =>
        expandDollar done m rest frag ++
          substTokGo name frag (done ++ [c]) cs (m.length - 1)
    | none => c :: substTokGo name frag (done ++ [c]) cs 0

/-- One `template.replace(TOKEN_NAME, frag)` call. -/
def replaceToken (name frag tpl : String) : String :=
  ⟨substTokGo name frag.data [] tpl.data 0⟩

/-- One placeholder occurrence, with the whitespace the regex tolerates
around the name. -/
def tokenOf (name : String) (w1 w2 : List Char) : List Char :=
  openTok ++ w1 ++ name.data ++ w2 ++ closeTok

/-- The repository's token names: nonempty and not starting with
whitespace (they are all uppercase-and-underscore), which makes the
greedy embedding of `\s*` agree with the regex. -/
def goodName (name : String) : Bool :=
  match name.data with
  | [] => false
  | c :: _ => !isJsWs c

/-- Checks that no token match starts at any position strictly inside
`s` when `s` is followed by `rest`. -/
def cleanBefore (name : String) : List Char → List Char → Bool
  | [], _ => true
  | c :: cs, rest =>
    (matchToken name (c :: cs ++ rest)).isNone && cleanBefore name cs rest

/-- One of the four characters that makes a following position of a
dollar sign an active escape. -/
def isEscCh (d : Char) : Bool :=
  d = dollarChar || d = '&' || d = bqChar || d = aposChar

/-- A replacement fragment containing no active dollar escape, i.e. no
dollar sign immediately followed by one of the four escape characters. -/
def noEscB : List Char → Bool
  | [] => true
  | [_] => true
  | c :: d :: rest => !(c = dollarChar && isEscCh d) && noEscB (d :: rest)

/-! ### Lemmas about the scanners -/

theorem stripPrefixL_append (p t : List Char) :
    stripPrefixL p (p ++ t) = some t := by
  induction p with
  | nil => rfl
  | cons a ps ih => simp [stripPrefixL, ih]

theorem stripPrefixL_some {p l t : List Char}
    (h : stripPrefixL p l = some t) : l = p ++ t := by
  induction p generalizing l with
  | nil => simp [stripPrefixL] at h; simp [h]
  | cons a ps ih =>
    cases l with
    | nil => simp [stripPrefixL] at h
    | cons c cs =>
      by_cases hac : a = c
      · subst hac
        rw [stripPrefixL, if_pos rfl] at h
        simp [ih h]
      · rw [stripPrefixL, if_neg hac] at h
        exact absurd h (by simp)

theorem spanWs_split (l : List Char) :
    (spanWs l).1 ++ (spanWs l).2 = l := by
  induction l with
  | nil => rfl
  | cons c cs ih =>
    by_cases h : isJsWs c = true
    · simp [spanWs, h, ih]
    · simp only [Bool.not_eq_true] at h
      simp [spanWs, h]

theorem spanWs_ws_prefix {w : List Char} (hw : allWsL w = true)
    {c : Char} (hc : isJsWs c = false) (t : List Char) :
    spanWs (w ++ c :: t) = (w, c :: t) := by
  induction w with
  | nil => simp [spanWs, hc]
  | cons a ws ih =>
    have ha : isJsWs a = true := by
      simp only [allWsL, List.all_cons, Bool.and_eq_true] at hw
      exact hw.1
    have hws : allWsL ws = true := by
      simp only [allWsL, List.all_cons, Bool.and_eq_true] at hw
      exact hw.2
    simp [spanWs, ha, ih hws]

theorem matchToken_tokenOf (name : String) (hn : goodName name = true)
    {w1 w2 : List Char} (h1 : allWsL w1 = true) (h2 : allWsL w2 = true)
    (r : List Char) :
    matchToken name (tokenOf name w1 w2 ++ r) =
      some (tokenOf name w1 w2, r) := by
  rcases hname : name.data with _ | ⟨c, nr⟩
  · rw [goodName, hname] at hn
    exact absurd hn (by simp)
  · have hc : isJsWs c = false := by
      rw [goodName, hname] at hn
      simpa using hn
    have e0 : tokenOf name w1 w2 ++ r =
        openTok ++ (w1 ++ (c :: (nr ++ (w2 ++ (closeTok ++ r))))) := by
      rw [tokenOf, hname]
      simp [List.append_assoc]
    have eSpan1 : spanWs (w1 ++ (c :: (nr ++ (w2 ++ (closeTok ++ r))))) =
        (w1, c :: (nr ++ (w2 ++ (closeTok ++ r)))) :=
      spanWs_ws_prefix h1 hc _
    have eStrip1 : stripPrefixL name.data
        (c :: (nr ++ (w2 ++ (closeTok ++ r)))) =
        some (w2 ++ (closeTok ++ r)) := by
      rw [hname]
      exact stripPrefixL_append (c :: nr) _
    have eSpan2 : spanWs (w2 ++ (closeTok ++ r)) = (w2, closeTok ++ r) :=
      spanWs_ws_prefix h2 (c := '%') (by decide) ('}' :: '}' :: r)
    rw [e0, matchToken, stripPrefixL_append, Option.some_bind, eSpan1]
    simp only [eStrip1, Option.some_bind, eSpan2, stripPrefixL_append,
      Option.map_some']
    simp [tokenOf, hname, List.append_assoc]

theorem matchToken_some {name : String} {l m r : List Char}
    (h : matchToken name l = some (m, r)) : l = m ++ r ∧ m ≠ [] := by
  rw [matchToken] at h
  rcases h1 : stripPrefixL openTok l with _ | l1 <;> rw [h1] at h
  · simp at h
  · rw [Option.some_bind] at h
    rcases h2 : stripPrefixL name.data (spanWs l1).2 with _ | l3 <;>
      rw [h2] at h
    · simp at h
    · rw [Option.some_bind] at h
      rcases h3 : stripPrefixL closeTok (spanWs l3).2 with _ | l5 <;>
        rw [h3] at h
      · simp at h
      · simp only [Option.map_some', Option.some.injEq,
          Prod.mk.injEq] at h
        obtain ⟨hm, hr⟩ := h
        have e1 := stripPrefixL_some h1
        have e2 := stripPrefixL_some h2
        have e3 := stripPrefixL_some h3
        have s1 := spanWs_split l1
        have s2 := spanWs_split l3
        constructor
        · calc l = openTok ++ l1 := e1
            _ = openTok ++ ((spanWs l1).1 ++ (spanWs l1).2) := by rw [s1]
            _ = openTok ++ ((spanWs l1).1 ++ (name.data ++ l3)) := by
                rw [e2]
            _ = openTok ++ ((spanWs l1).1 ++ (name.data ++
                ((spanWs l3).1 ++ (spanWs l3).2))) := by rw [s2]
            _ = openTok ++ ((spanWs l1).1 ++ (name.data ++
                ((spanWs l3).1 ++ (closeTok ++ l5)))) := by rw [e3]
            _ = m ++ r := by rw [← hm, ← hr]; simp [List.append_assoc]
        · rw [← hm]
          simp [openTok]

theorem substTokGo_cons_succ (name : String) (frag done : List Char)
    (c : Char) (cs : List Char) (k : Nat) :
    substTokGo name frag done (c :: cs) (k + 1) =
      substTokGo name frag (done ++ [c]) cs k := rfl

theorem substTokGo_skip (name : String) (frag : List Char) :
    ∀ (xs done rest : List Char),
      substTokGo name frag done (xs ++ rest) xs.length =
        substTokGo name frag (done ++ xs) rest 0 := by
  intro xs
  induction xs with
  | nil => intro done rest; simp
  | cons x xs ih =>
    intro done rest
    rw [show (x :: xs) ++ rest = x :: (xs ++ rest) from rfl,
      show (x :: xs).length = xs.length + 1 from rfl,
      substTokGo_cons_succ, ih]
    simp [List.append_assoc]

theorem substTokGo_cons_none (name : String) (frag done : List Char)
    (c : Char) (cs : List Char)
    (h : matchToken name (c :: cs) = none) :
    substTokGo name frag done (c :: cs) 0 =
      c :: substTokGo name frag (done ++ [c]) cs 0 := by
  simp only [substTokGo, h]

theorem substTokGo_cons_some (name : String) (frag done : List Char)
    (c : Char) (cs m rest : List Char)
    (h : matchToken name (c :: cs) = some (m, rest)) :
    substTokGo name frag done (c :: cs) 0 =
      expandDollar done m rest frag ++
        substTokGo name frag (done ++ [c]) cs (m.length - 1) := by
  simp only [substTokGo, h]

theorem substTokGo_clean (name : String) (frag : List Char) :
    ∀ (s rest done : List Char), cleanBefore name s rest = true →
      substTokGo name frag done (s ++ rest) 0 =
        s ++ substTokGo name frag (done ++ s) rest 0 := by
  intro s
  induction s with
  | nil => intro rest done _; simp
  | cons c cs ih =>
    intro rest done h
    rw [cleanBefore] at h
    simp only [Bool.and_eq_true, Option.isNone_iff_eq_none] at h
    obtain ⟨hnone, hrest⟩ := h
    rw [show (c :: cs) ++ rest = c :: (cs ++ rest) from rfl,
      substTokGo_cons_none name frag done c (cs ++ rest) hnone,
      ih rest (done ++ [c]) hrest]
    simp [List.append_assoc]

theorem substTokGo_match (name : String) (frag done : List Char) :
    ∀ (m r : List Char), matchToken name (m ++ r) = some (m, r) →
      m ≠ [] →
      substTokGo name frag done (m ++ r) 0 =
        expandDollar done m r frag ++
          substTokGo name frag (done ++ m) r 0 := by
  intro m r hm hne
  cases m with
  | nil => exact absurd rfl hne
  | cons c cs =>
    rw [show (c :: cs) ++ r = c :: (cs ++ r) from rfl,
      substTokGo_cons_some name frag done c (cs ++ r) (c :: cs) r hm,
      show (c :: cs).length - 1 = cs.length from rfl,
      substTokGo_skip]
    rw [show (done ++ [c]) ++ cs = done ++ (c :: cs) from by simp]

theorem substTokGo_token (name : String) (hn : goodName name = true)
    (frag : List Char) {w1 w2 : List Char}
    (h1 : allWsL w1 = true) (h2 : allWsL w2 = true)
    (done r : List Char) :
    substTokGo name frag done (tokenOf name w1 w2 ++ r) 0 =
      expandDollar done (tokenOf name w1 w2) r frag ++
        substTokGo name frag (done ++ tokenOf name w1 w2) r 0 :=
  substTokGo_match name frag done (tokenOf name w1 w2) r
    (matchToken_tokenOf name hn h1 h2 r)
    (by simp [tokenOf, openTok])

theorem expandDollar_eq_self (before m after : List Char) :
    ∀ l, noEscB l = true → expandDollar before m after l = l := by
  intro l
  induction l with
  | nil => intro _; rfl
  | cons c t ih =>
    cases t with
    | nil => intro _; rfl
    | cons d rest =>
      intro h
      rw [noEscB] at h
      simp only [Bool.and_eq_true, Bool.not_eq_true'] at h
      obtain ⟨hcd, hrest⟩ := h
      by_cases hc : c = dollarChar
      · subst hc
        have hd : isEscCh d = false := by
          simpa using hcd
        have hd1 : ¬(d = dollarChar) := by
          intro he; rw [isEscCh, he] at hd; simp at hd
        have hd2 : ¬(d = '&') := by
          intro he; rw [isEscCh, he] at hd; simp [dollarChar] at hd
        have hd3 : ¬(d = bqChar) := by
          intro he; rw [isEscCh, he] at hd; simp [dollarChar, bqChar] at hd
        have hd4 : ¬(d = aposChar) := by
          intro he; rw [isEscCh, he] at hd; simp [dollarChar, aposChar] at hd
        rw [expandDollar, if_pos rfl, if_neg hd1, if_neg hd2, if_neg hd3,
          if_neg hd4, ih hrest]
      · rw [expandDollar, if_neg hc, ih hrest]

theorem substTokGo_nil (name : String) (frag done : List Char) (k : Nat) :
    substTokGo name frag done [] k = [] := rfl

/-- Helper: one `replace` call on a template with a single token
occurrence, with an escape-free fragment, yields prefix ++ fragment ++
suffix. -/
theorem substTok_one (name : String) (frag s₁ s₂ w1 w2 : List Char)
    (hn : goodName name = true)
    (hw1 : allWsL w1 = true) (hw2 : allWsL w2 = true)
    (h₁ : cleanBefore name s₁ (tokenOf name w1 w2 ++ s₂) = true)
    (h₂ : cleanBefore name s₂ [] = true)
    (hfrag : noEscB frag = true) :
    substTokGo name frag [] (s₁ ++ (tokenOf name w1 w2 ++ s₂)) 0 =
      s₁ ++ (frag ++ s₂) := by
  rw [substTokGo_clean name frag s₁ (tokenOf name w1 w2 ++ s₂) [] h₁,
    substTokGo_token name hn frag hw1 hw2 _ s₂,
    expandDollar_eq_self _ _ _ frag hfrag]
  have hs₂ := substTokGo_clean name frag s₂ []
    (([] ++ s₁) ++ tokenOf name w1 w2) h₂
  rw [List.append_nil] at hs₂
  rw [hs₂, substTokGo_nil, List.append_nil]

/-- C1 (amended): one substitution step — a single
`template.replace(TOKEN_NAME, frag)` call — replaces every occurrence of
the token (whitespace tolerated around the case-sensitively matched name)
with the identical fragment in one pass, and never re-matches a token
contained in the substituted content (the fragment is free to contain
token text), PROVIDED the fragment contains no active dollar escape; a
fragment containing one of the JavaScript replacement escapes is expanded
by the runtime instead of being inserted verbatim (see the
counterexample). Here for a template decomposed as
`s₁ ++ token ++ s₂ ++ token ++ s₃` with no token occurrence starting
inside `s₁`, `s₂`, `s₃`. -/
theorem tokenSubstitution_replaces_all_occurrences
    (name : String) (frag s₁ s₂ s₃ wa wb wc wd : List Char)
    (hn : goodName name = true)
    (hwa : allWsL wa = true) (hwb : allWsL wb = true)
    (hwc : allWsL wc = true) (hwd : allWsL wd = true)
    (h₁ : cleanBefore name s₁
      (tokenOf name wa wb ++ (s₂ ++ (tokenOf name wc wd ++ s₃))) = true)
    (h₂ : cleanBefore name s₂ (tokenOf name wc wd ++ s₃) = true)
    (h₃ : cleanBefore name s₃ [] = true)
    (hfrag : noEscB frag = true) :
    substTokGo name frag []
      (s₁ ++ (tokenOf name wa wb ++ (s₂ ++ (tokenOf name wc wd ++ s₃))))
      0 =
      s₁ ++ (frag ++ (s₂ ++ (frag ++ s₃))) := by
  rw [substTokGo_clean name frag s₁ _ [] h₁,
    substTokGo_token name hn frag hwa hwb _ _,
    expandDollar_eq_self _ _ _ frag hfrag]
  set d₁ := ([] ++ s₁) ++ tokenOf name wa wb with hd₁
  rw [substTokGo_clean name frag s₂ _ d₁ h₂,
    substTokGo_token name hn frag hwc hwd _ _,
    expandDollar_eq_self _ _ _ frag hfrag]
  have hs₃ := substTokGo_clean name frag s₃ []
    ((d₁ ++ s₂) ++ tokenOf name wc wd) h₃
  rw [List.append_nil] at hs₃
  rw [hs₃, substTokGo_nil, List.append_nil]

/-- Witness for C1: both occurrences of `ROWS` (one written
`\x7b\x7b%ROWS %\x7d\x7d`, one `\x7b\x7b% ROWS%\x7d\x7d`) are replaced
with the same fragment, and the token text contained in the fragment is
not re-matched. -/
theorem tokenSubstitution_witness :
    substTokGo "ROWS" "<tr>{{%ROWS%}}</tr>".data []
      ("a".data ++ (tokenOf "ROWS" [] [' '] ++ ("b".data ++
        (tokenOf "ROWS" [' '] [] ++ "c".data)))) 0 =
      "a".data ++ ("<tr>{{%ROWS%}}</tr>".data ++ ("b".data ++
        ("<tr>{{%ROWS%}}</tr>".data ++ "c".data))) :=
  tokenSubstitution_replaces_all_occurrences "ROWS"
    "<tr>{{%ROWS%}}</tr>".data "a".data "b".data "c".data
    [] [' '] [' '] []
    (by decide) (by decide) (by decide) (by decide) (by decide)
    (by decide) (by decide) (by decide) (by decide)

/-- Counterexample for C1 as stated: with the replacement fragment
`"$&"`, the JavaScript `replace` inserts the matched token text (dollar
escape expansion), not the identical fragment, so the output is the
unchanged template rather than `"x$&y"`. -/
theorem tokenSubstitution_cex :
    replaceToken "ROWS" "$&" "x{{%ROWS%}}y" = "x{{%ROWS%}}y" ∧
      ("x{{%ROWS%}}y" : String) ≠ "x$&y" := by
  constructor
  · decide
  · decide

/-! ## The parsed document and the section walks

The converter produces a flat HTML body; every builder parses it with
cheerio and walks top-level siblings.  `HNode` embeds one node; a
document is its list of top-level nodes.  cheerio behaviour embedded
here: `.text()` concatenates all descendant text; `.next()` yields the
next sibling element (text nodes are skipped); `.children(sel)` yields
the direct element children matching `sel`; tag names are compared after
ASCII lowercasing (the code always writes
`(el[0]?.tagName || "").toLowerCase()`; all compared literals are
ASCII). -/

/-- One parsed HTML node: a text node, or an element with a tag name, an
attribute list and children. -/
inductive HNode where
  | text : String → HNode
  | elem : String → List (String × String) → List HNode → HNode

mutual

/-- Text content of a node (cheerio `.text()`). -/
def textContentN : HNode → String
  | .text s => s
  | .elem _ _ cs => textContentF cs

/-- Text content of a forest. -/
def textContentF : List HNode → String
  | [] => ""
  | n :: ns => textContentN n ++ textContentF ns

end

/-- ASCII lowercasing of one character. -/
def asciiLowerC (c : Char) : Char :=
  if 65 ≤ c.toNat ∧ c.toNat ≤ 90 then Char.ofNat (c.toNat + 32) else c

/-- ASCII lowercasing (the `toLowerCase()` calls in the code only ever
feed comparisons against ASCII literals). -/
def asciiLower (s : String) : String :=
  ⟨s.data.map asciiLowerC⟩

/-- Tag of a node; text nodes have none. -/
def tagOf : HNode → String
  | .text _ => ""
  | .elem t _ _ => t

/-- Whether the node is an element. -/
def isElem : HNode → Bool
  | .text _ => false
  | .elem _ _ _ => true

/-- A titled sub-section (Topic / Story / Category in the builders). -/
structure Story where
  title : String
  nodes : List HNode

/-- Pushing the open sub-section, if any
(`if (current) stories.push(current)`). -/
def closeStory (cur : Option Story) (acc : List Story) : List Story :=
  match cur with
  | none => acc
  | some s => acc ++ [s]

/-- Direct element children matching a tag selector
(cheerio `.children("p, ul, ol, img")` and similar). -/
def contentChildren (sel : List String) (children : List HNode) :
    List HNode :=
  children.filter (fun c => isElem c && sel.contains (asciiLower (tagOf c)))

/-- Tags collected as story content by the spotlight walks. -/
def gsContentTags : List String := ["p", "ul", "ol", "img"]

/-- Marker test of the extractors: an `h2` whose normalized lowercased
text is one of the accepted strings. -/
def isMarkerWith (accepted : List String) (n : HNode) : Bool :=
  match n with
  | .text _ => false
  | .elem tag _ children =>
    asciiLower tag = "h2" &&
      accepted.contains (asciiLower (cleanText (textContentF children)))

/-- Locating the first marker in document order and returning the
following siblings (`$("h2").filter(...).first()` then `.next()`
onwards). -/
def findMarkerSplit? (isMarker : HNode → Bool) :
    List HNode → Option (List HNode)
  | [] => none
  | n :: rest =>
    if isMarker n then some rest else findMarkerSplit? isMarker rest

/-- Sibling walk of `extractSpotlightGS`
(`build-geopolitical-summary.js` lines 315-348): stop at an `h2` with
nonempty text, open a story at an `h3` with nonempty text, collect
`p`/`ul`/`ol`/`img` elements (or such direct children of a `div`) into
the open story, ignore everything else. -/
def gsSpotWalk : List HNode → Option Story → List Story → List Story
  | [], cur, acc => closeStory cur acc
  | .text _ :: rest, cur, acc => gsSpotWalk rest cur acc
  | .elem tag attrs children :: rest, cur, acc =>
    if asciiLower tag = "h2" ∧ cleanText (textContentF children) ≠ "" then
      closeStory cur acc
    else if asciiLower tag = "h3" ∧ cleanText (textContentF children) ≠ ""
    then
      gsSpotWalk rest (some ⟨cleanText (textContentF children), []⟩)
        (closeStory cur acc)
    else
      match cur with
      | none => gsSpotWalk rest none acc
      | some s =>
        if asciiLower tag = "p" ∨ asciiLower tag = "ul" ∨
            asciiLower tag = "ol" ∨ asciiLower tag = "img" then
          gsSpotWalk rest
            (some ⟨s.title, s.nodes ++ [.elem tag attrs children]⟩) acc
        else if asciiLower tag = "div" then
          gsSpotWalk rest
            (some ⟨s.title,
              s.nodes ++ contentChildren gsContentTags children⟩) acc
        else gsSpotWalk rest (some s) acc

/-- `extractSpotlightGS` (`build-geopolitical-summary.js` lines 302-352):
marker `h2` "spotlights"/"spotlight", walk, then keep stories with a
title. -/
def extractSpotlightGS (doc : List HNode) : List Story :=
  match findMarkerSplit? (isMarkerWith ["spotlights", "spotlight"]) doc with
  | none => []
  | some rest => (gsSpotWalk rest none []).filter (fun s => s.title ≠ "")

/-- Sibling walk of `extractSpotlightTopics` (`build.js` lines 275-310):
stop at ANY `h2`, open a story at ANY `h3`, collect
`p`/`ul`/`ol`/`img` elements (or such direct children of a `div`). -/
def psSpotWalk : List HNode → Option Story → List Story → List Story
  | [], cur, acc => closeStory cur acc
  | .text _ :: rest, cur, acc => psSpotWalk rest cur acc
  | .elem tag attrs children :: rest, cur, acc =>
    if asciiLower tag = "h2" then closeStory cur acc
    else if asciiLower tag = "h3" then
      psSpotWalk rest (some ⟨cleanText (textContentF children), []⟩)
        (closeStory cur acc)
    else
      match cur with
      | none => psSpotWalk rest none acc
      | some s =>
        if asciiLower tag = "p" ∨ asciiLower tag = "ul" ∨
            asciiLower tag = "ol" ∨ asciiLower tag = "img" then
          psSpotWalk rest
            (some ⟨s.title, s.nodes ++ [.elem tag attrs children]⟩) acc
        else if asciiLower tag = "div" then
          psSpotWalk rest
            (some ⟨s.title,
              s.nodes ++ contentChildren gsContentTags children⟩) acc
        else psSpotWalk rest (some s) acc

/-- `extractSpotlightTopics` (`build.js` lines 266-311): marker `h2`
"spotlight", then the walk; no final filter. -/
def extractSpotlightTopics (doc : List HNode) : List Story :=
  match findMarkerSplit? (isMarkerWith ["spotlight"]) doc with
  | none => []
  | some rest => psSpotWalk rest none []

/-- Sibling walk of `extractMeanwhileDubai`
(`build-dubai-summary.js` lines 805-834): stop at an `h2` with nonempty
text, open a story at an `h3` with nonempty text, collect `p` elements
(or direct `p` children of a `div`). -/
def duMeanwhileWalk : List HNode → Option Story → List Story → List Story
  | [], cur, acc => closeStory cur acc
  | .text _ :: rest, cur, acc => duMeanwhileWalk rest cur acc
  | .elem tag attrs children :: rest, cur, acc =>
    if asciiLower tag = "h2" ∧ cleanText (textContentF children) ≠ "" then
      closeStory cur acc
    else if asciiLower tag = "h3" ∧ cleanText (textContentF children) ≠ ""
    then
      duMeanwhileWalk rest (some ⟨cleanText (textContentF children), []⟩)
        (closeStory cur acc)
    else
      match cur with
      | none => duMeanwhileWalk rest none acc
      | some s =>
        if asciiLower tag = "p" then
          duMeanwhileWalk rest
            (some ⟨s.title, s.nodes ++ [.elem tag attrs children]⟩) acc
        else if asciiLower tag = "div" then
          duMeanwhileWalk rest
            (some ⟨s.title, s.nodes ++ contentChildren ["p"] children⟩) acc
        else duMeanwhileWalk rest (some s) acc

/-- `extractMeanwhileDubai` (`build-dubai-summary.js` lines 792-839):
marker `h2` "meanwhile", walk, keep stories with a title and a nonempty
body. -/
def extractMeanwhileDubai (doc : List HNode) : List Story :=
  match findMarkerSplit? (isMarkerWith ["meanwhile"]) doc with
  | none => []
  | some rest =>
    (duMeanwhileWalk rest none []).filter
      (fun s => s.title ≠ "" && !s.nodes.isEmpty)

/-! ### C2: the walk never passes the next higher-or-equal heading -/

/-- An `h2` element with nonempty normalized text — the stop condition
`tag === "h2" && txt` of the GS walk. -/
def isStopH2GS (n : HNode) : Bool :=
  match n with
  | .text _ => false
  | .elem tag _ children =>
    asciiLower tag = "h2" && cleanText (textContentF children) ≠ ""

theorem gsSpotWalk_stops {stop : HNode} (hstop : isStopH2GS stop = true) :
    ∀ (mid post : List HNode) (cur : Option Story) (acc : List Story),
      gsSpotWalk (mid ++ stop :: post) cur acc =
        gsSpotWalk (mid ++ [stop]) cur acc := by
  intro mid
  induction mid with
  | nil =>
    intro post cur acc
    cases stop with
    | text _ => simp [isStopH2GS] at hstop
    | elem tag attrs children =>
      rw [isStopH2GS] at hstop
      simp only [Bool.and_eq_true, decide_eq_true_eq] at hstop
      simp [gsSpotWalk, hstop.1, hstop.2]
  | cons n ns ih =>
    intro post cur acc
    cases n with
    | text s => simpa [gsSpotWalk] using ih post cur acc
    | elem tag attrs children =>
      by_cases hh2 : asciiLower tag = "h2" ∧
          cleanText (textContentF children) ≠ ""
      · simp [gsSpotWalk, hh2]
      · by_cases hh3 : asciiLower tag = "h3" ∧
            cleanText (textContentF children) ≠ ""
        · simpa [gsSpotWalk, hh2, hh3] using ih post _ _
        · cases cur with
          | none => simpa [gsSpotWalk, hh2, hh3] using ih post none acc
          | some s =>
            by_cases hc : asciiLower tag = "p" ∨ asciiLower tag = "ul" ∨
                asciiLower tag = "ol" ∨ asciiLower tag = "img"
            · simpa [gsSpotWalk, hh2, hh3, hc] using ih post _ _
            · by_cases hd : asciiLower tag = "div"
              · simpa [gsSpotWalk, hh2, hh3, hc, hd] using ih post _ _
              · simpa [gsSpotWalk, hh2, hh3, hc, hd] using ih post _ _

theorem psSpotWalk_stops {stop : HNode}
    (hstop : isStopH2GS stop = true) :
    ∀ (mid post : List HNode) (cur : Option Story) (acc : List Story),
      psSpotWalk (mid ++ stop :: post) cur acc =
        psSpotWalk (mid ++ [stop]) cur acc := by
  intro mid
  induction mid with
  | nil =>
    intro post cur acc
    cases stop with
    | text _ => simp [isStopH2GS] at hstop
    | elem tag attrs children =>
      rw [isStopH2GS] at hstop
      simp only [Bool.and_eq_true, decide_eq_true_eq] at hstop
      simp [psSpotWalk, hstop.1]
  | cons n ns ih =>
    intro post cur acc
    cases n with
    | text s => simpa [psSpotWalk] using ih post cur acc
    | elem tag attrs children =>
      by_cases hh2 : asciiLower tag = "h2"
      · simp [psSpotWalk, hh2]
      · by_cases hh3 : asciiLower tag = "h3"
        · simpa [psSpotWalk, hh2, hh3] using ih post _ _
        · cases cur with
          | none => simpa [psSpotWalk, hh2, hh3] using ih post none acc
          | some s =>
            by_cases hc : asciiLower tag = "p" ∨ asciiLower tag = "ul" ∨
                asciiLower tag = "ol" ∨ asciiLower tag = "img"
            · simpa [psSpotWalk, hh2, hh3, hc] using ih post _ _
            · by_cases hd : asciiLower tag = "div"
              · simpa [psSpotWalk, hh2, hh3, hc, hd] using ih post _ _
              · simpa [psSpotWalk, hh2, hh3, hc, hd] using ih post _ _

theorem findMarkerSplit?_append (p : HNode → Bool) :
    ∀ (doc : List HNode), doc.any p = true →
      ∃ r, findMarkerSplit? p doc = some r ∧
        ∀ x, findMarkerSplit? p (doc ++ x) = some (r ++ x) := by
  intro doc
  induction doc with
  | nil => intro h; simp at h
  | cons n ns ih =>
    intro h
    by_cases hn : p n = true
    · exact ⟨ns, by simp [findMarkerSplit?, hn],
        fun x => by simp [findMarkerSplit?, hn]⟩
    · simp only [List.any_cons, Bool.or_eq_true] at h
      rcases h with h | h
      · exact absurd h hn
      · obtain ⟨r, hr, hx⟩ := ih h
        refine ⟨r, by simp [findMarkerSplit?, hn, hr], fun x => ?_⟩
        simp only [Bool.not_eq_true] at hn
        simp [findMarkerSplit?, hn, hx x]

/-- C2 (amended): in the GS variant a section's collected content stops
at the next `h2` whose normalized text is NONEMPTY — the extraction
result is entirely independent of everything after that heading — and in
the presidential `build.js` variant it stops at any `h2` (a nonempty one
in particular).  An `h2` with empty text does NOT terminate a section in
the GS variant (see the counterexample). -/
theorem sectionWalk_stops_at_next_heading
    (doc₁ post : List HNode) (stop : HNode)
    (hstop : isStopH2GS stop = true)
    (hgs : doc₁.any (isMarkerWith ["spotlights", "spotlight"]) = true)
    (hps : doc₁.any (isMarkerWith ["spotlight"]) = true) :
    extractSpotlightGS (doc₁ ++ stop :: post) =
        extractSpotlightGS (doc₁ ++ [stop])
    ∧ extractSpotlightTopics (doc₁ ++ stop :: post) =
        extractSpotlightTopics (doc₁ ++ [stop]) := by
  constructor
  · obtain ⟨r, _, hx⟩ :=
      findMarkerSplit?_append (isMarkerWith ["spotlights", "spotlight"])
        doc₁ hgs
    rw [extractSpotlightGS, extractSpotlightGS, hx (stop :: post),
      hx [stop]]
    simp only
    rw [gsSpotWalk_stops hstop r post none []]
  · obtain ⟨r, _, hx⟩ :=
      findMarkerSplit?_append (isMarkerWith ["spotlight"]) doc₁ hps
    rw [extractSpotlightTopics, extractSpotlightTopics, hx (stop :: post),
      hx [stop]]
    simp only
    rw [psSpotWalk_stops hstop r post none []]

/-- Witness for C2 (amended): with a marker, one story heading and a
nonempty stop `h2`, a paragraph after the stop heading changes nothing. -/
theorem sectionWalk_stops_witness :
    extractSpotlightGS
        ([HNode.elem "h2" [] [HNode.text "Spotlight"],
          HNode.elem "h3" [] [HNode.text "A"]] ++
          HNode.elem "h2" [] [HNode.text "Done"] ::
            [HNode.elem "p" [] [HNode.text "y"]]) =
      extractSpotlightGS
        ([HNode.elem "h2" [] [HNode.text "Spotlight"],
          HNode.elem "h3" [] [HNode.text "A"]] ++
          [HNode.elem "h2" [] [HNode.text "Done"]])
    ∧ extractSpotlightTopics
        ([HNode.elem "h2" [] [HNode.text "Spotlight"],
          HNode.elem "h3" [] [HNode.text "A"]] ++
          HNode.elem "h2" [] [HNode.text "Done"] ::
            [HNode.elem "p" [] [HNode.text "y"]]) =
      extractSpotlightTopics
        ([HNode.elem "h2" [] [HNode.text "Spotlight"],
          HNode.elem "h3" [] [HNode.text "A"]] ++
          [HNode.elem "h2" [] [HNode.text "Done"]]) :=
  sectionWalk_stops_at_next_heading _ _ _ (by decide) (by decide)
    (by decide)

/-- Counterexample for C2 as stated: in the GS variant an `h2` element
with EMPTY text is "the next h2" after the story heading, yet the walk
does not stop there — a paragraph placed after that heading is still
collected, so the extraction result depends on nodes located after the
next equal-level heading. -/
theorem sectionWalk_cex :
    extractSpotlightGS
        ([HNode.elem "h2" [] [HNode.text "Spotlight"],
          HNode.elem "h3" [] [HNode.text "A"]] ++
          HNode.elem "h2" [] [] :: [HNode.elem "p" [] [HNode.text "y"]]) ≠
      extractSpotlightGS
        ([HNode.elem "h2" [] [HNode.text "Spotlight"],
          HNode.elem "h3" [] [HNode.text "A"]] ++
          [HNode.elem "h2" [] []]) := by
  intro h
  have h2 := congrArg
    (fun l : List Story => l.map (fun s => s.nodes.length)) h
  have e1 : (extractSpotlightGS
      ([HNode.elem "h2" [] [HNode.text "Spotlight"],
        HNode.elem "h3" [] [HNode.text "A"]] ++
        HNode.elem "h2" [] [] ::
          [HNode.elem "p" [] [HNode.text "y"]])).map
      (fun s => s.nodes.length) = [1] := rfl
  have e2 : (extractSpotlightGS
      ([HNode.elem "h2" [] [HNode.text "Spotlight"],
        HNode.elem "h3" [] [HNode.text "A"]] ++
        [HNode.elem "h2" [] []])).map
      (fun s => s.nodes.length) = [0] := rfl
  simp only [] at h2
  rw [e1, e2] at h2
  exact absurd h2 (by decide)

/-! ### C3: a sub-section's body is exactly the content between its
heading and the next sub-heading -/

/-- The content a single non-heading sibling contributes to the open
story in the `build.js` spotlight walk: the element itself if it is a
`p`/`ul`/`ol`/`img`, the matching direct children if it is a `div`,
nothing otherwise. -/
def psContentOf (n : HNode) : List HNode :=
  match n with
  | .text _ => []
  | .elem tag attrs children =>
    if asciiLower tag = "p" ∨ asciiLower tag = "ul" ∨
        asciiLower tag = "ol" ∨ asciiLower tag = "img" then
      [.elem tag attrs children]
    else if asciiLower tag = "div" then
      contentChildren gsContentTags children
    else []

/-- The content contributed by one sibling in the Dubai meanwhile walk:
only `p` elements and direct `p` children of a `div`. -/
def duContentOf (n : HNode) : List HNode :=
  match n with
  | .text _ => []
  | .elem tag _ children =>
    if asciiLower tag = "p" then [n]
    else if asciiLower tag = "div" then contentChildren ["p"] children
    else []

theorem psSpotWalk_content :
    ∀ (mid : List HNode),
      (∀ n ∈ mid, asciiLower (tagOf n) ≠ "h2" ∧
        asciiLower (tagOf n) ≠ "h3") →
      ∀ (tail : List HNode) (t : String) (ns : List HNode)
        (acc : List Story),
        psSpotWalk (mid ++ tail) (some ⟨t, ns⟩) acc =
          psSpotWalk tail (some ⟨t, ns ++ (mid.map psContentOf).flatten⟩)
            acc := by
  intro mid
  induction mid with
  | nil => intro _ tail t ns acc; simp [psContentOf]
  | cons n mid' ih =>
    intro hmid tail t ns acc
    obtain ⟨hn2, hn3⟩ := hmid n (by simp)
    have hrest : ∀ m ∈ mid', asciiLower (tagOf m) ≠ "h2" ∧
        asciiLower (tagOf m) ≠ "h3" :=
      fun m hm => hmid m (by simp [hm])
    cases n with
    | text s =>
      simpa [psSpotWalk, psContentOf] using ih hrest tail t ns acc
    | elem tag attrs children =>
      rw [tagOf] at hn2 hn3
      by_cases hc : asciiLower tag = "p" ∨ asciiLower tag = "ul" ∨
          asciiLower tag = "ol" ∨ asciiLower tag = "img"
      · have := ih hrest tail t (ns ++ [HNode.elem tag attrs children]) acc
        simp only [List.cons_append, psSpotWalk, hn2, hn3, hc,
          if_true, if_false, List.map_cons, List.flatten,
          psContentOf] at this ⊢
        simp only [hn2, hn3, hc, if_true, ite_false, if_pos,
          List.append_assoc] at this ⊢
        simpa [List.append_assoc] using this
      · by_cases hd : asciiLower tag = "div"
        · have := ih hrest tail t
            (ns ++ contentChildren gsContentTags children) acc
          simp only [List.cons_append, psSpotWalk, hn2, hn3, hc, hd,
            List.map_cons, List.flatten, psContentOf] at this ⊢
          simpa [hn2, hn3, hc, hd, List.append_assoc] using this
        · have := ih hrest tail t ns acc
          simp only [List.cons_append, psSpotWalk, hn2, hn3, hc, hd,
            List.map_cons, List.flatten, psContentOf] at this ⊢
          simpa [hn2, hn3, hc, hd] using this

theorem duMeanwhileWalk_content :
    ∀ (mid : List HNode),
      (∀ n ∈ mid,
        ¬(asciiLower (tagOf n) = "h2" ∧
          cleanText (textContentN n) ≠ "") ∧
        ¬(asciiLower (tagOf n) = "h3" ∧
          cleanText (textContentN n) ≠ "")) →
      ∀ (tail : List HNode) (t : String) (ns : List HNode)
        (acc : List Story),
        duMeanwhileWalk (mid ++ tail) (some ⟨t, ns⟩) acc =
          duMeanwhileWalk tail
            (some ⟨t, ns ++ (mid.map duContentOf).flatten⟩) acc := by
  intro mid
  induction mid with
  | nil => intro _ tail t ns acc; simp [duContentOf]
  | cons n mid' ih =>
    intro hmid tail t ns acc
    obtain ⟨hn2, hn3⟩ := hmid n (by simp)
    have hrest : ∀ m ∈ mid',
        ¬(asciiLower (tagOf m) = "h2" ∧
          cleanText (textContentN m) ≠ "") ∧
        ¬(asciiLower (tagOf m) = "h3" ∧
          cleanText (textContentN m) ≠ "") :=
      fun m hm => hmid m (by simp [hm])
    cases n with
    | text s =>
      simpa [duMeanwhileWalk, duContentOf] using ih hrest tail t ns acc
    | elem tag attrs children =>
      rw [tagOf] at hn2 hn3
      rw [show textContentN (HNode.elem tag attrs children) =
        textContentF children from rfl] at hn2 hn3
      by_cases hp : asciiLower tag = "p"
      · have := ih hrest tail t (ns ++ [HNode.elem tag attrs children]) acc
        simp only [List.cons_append, duMeanwhileWalk, hn2, hn3, hp,
          List.map_cons, List.flatten, duContentOf] at this ⊢
        simpa [hn2, hn3, hp, List.append_assoc] using this
      · by_cases hd : asciiLower tag = "div"
        · have := ih hrest tail t
            (ns ++ contentChildren ["p"] children) acc
          simp only [List.cons_append, duMeanwhileWalk, hn2, hn3, hp, hd,
            List.map_cons, List.flatten, duContentOf] at this ⊢
          simpa [hn2, hn3, hp, hd, List.append_assoc] using this
        · have := ih hrest tail t ns acc
          simp only [List.cons_append, duMeanwhileWalk, hn2, hn3, hp, hd,
            List.map_cons, List.flatten, duContentOf] at this ⊢
          simpa [hn2, hn3, hp, hd] using this

/-- C3: when the sibling walk encounters sub-heading A (an `h3`) and
then sub-heading B (the next `h3`), the sub-section opened at A is
closed with a body holding exactly the content-bearing nodes between the
two headings, in document order (`p`/`ul`/`ol`/`img` elements or such
direct children of a wrapping `div` for the `build.js` spotlight walk;
`p` elements or direct `p` children of a `div` for the Dubai meanwhile
walk), and nothing at or after B's heading; the walk continues at B with
a fresh empty body.  The premise of each conjunct says that no sibling
strictly between A and B is treated as a heading by that variant. -/
theorem subsectionBody_between_subheadings
    (tagA tagB : String) (aA aB : List (String × String))
    (cA cB : List HNode) (mid rest : List HNode)
    (cur : Option Story) (acc : List Story)
    (hA : asciiLower tagA = "h3") (hB : asciiLower tagB = "h3")
    (hAtxt : cleanText (textContentF cA) ≠ "")
    (hBtxt : cleanText (textContentF cB) ≠ "") :
    ((∀ n ∈ mid, asciiLower (tagOf n) ≠ "h2" ∧
        asciiLower (tagOf n) ≠ "h3") →
      psSpotWalk
          (HNode.elem tagA aA cA ::
            (mid ++ HNode.elem tagB aB cB :: rest)) cur acc =
        psSpotWalk rest (some ⟨cleanText (textContentF cB), []⟩)
          (closeStory cur acc ++
            [⟨cleanText (textContentF cA),
              (mid.map psContentOf).flatten⟩]))
    ∧ ((∀ n ∈ mid,
        ¬(asciiLower (tagOf n) = "h2" ∧
          cleanText (textContentN n) ≠ "") ∧
        ¬(asciiLower (tagOf n) = "h3" ∧
          cleanText (textContentN n) ≠ "")) →
      duMeanwhileWalk
          (HNode.elem tagA aA cA ::
            (mid ++ HNode.elem tagB aB cB :: rest)) cur acc =
        duMeanwhileWalk rest (some ⟨cleanText (textContentF cB), []⟩)
          (closeStory cur acc ++
            [⟨cleanText (textContentF cA),
              (mid.map duContentOf).flatten⟩])) := by
  have hA2 : asciiLower tagA ≠ "h2" := by rw [hA]; decide
  have hB2 : asciiLower tagB ≠ "h2" := by rw [hB]; decide
  constructor
  · intro hmid
    rw [show psSpotWalk (HNode.elem tagA aA cA ::
        (mid ++ HNode.elem tagB aB cB :: rest)) cur acc =
        psSpotWalk (mid ++ HNode.elem tagB aB cB :: rest)
          (some ⟨cleanText (textContentF cA), []⟩)
          (closeStory cur acc) from by
      simp [psSpotWalk, hA, hA2]]
    rw [psSpotWalk_content mid hmid _ _ _ _]
    rw [show psSpotWalk (HNode.elem tagB aB cB :: rest)
        (some ⟨cleanText (textContentF cA),
          [] ++ (mid.map psContentOf).flatten⟩) (closeStory cur acc) =
        psSpotWalk rest (some ⟨cleanText (textContentF cB), []⟩)
          (closeStory
            (some ⟨cleanText (textContentF cA),
              [] ++ (mid.map psContentOf).flatten⟩)
            (closeStory cur acc)) from by
      simp [psSpotWalk, hB, hB2]]
    simp [closeStory]
  · intro hmid
    rw [show duMeanwhileWalk (HNode.elem tagA aA cA ::
        (mid ++ HNode.elem tagB aB cB :: rest)) cur acc =
        duMeanwhileWalk (mid ++ HNode.elem tagB aB cB :: rest)
          (some ⟨cleanText (textContentF cA), []⟩)
          (closeStory cur acc) from by
      simp [duMeanwhileWalk, hA, hA2, hAtxt]]
    rw [duMeanwhileWalk_content mid hmid _ _ _ _]
    rw [show duMeanwhileWalk (HNode.elem tagB aB cB :: rest)
        (some ⟨cleanText (textContentF cA),
          [] ++ (mid.map duContentOf).flatten⟩) (closeStory cur acc) =
        duMeanwhileWalk rest (some ⟨cleanText (textContentF cB), []⟩)
          (closeStory
            (some ⟨cleanText (textContentF cA),
              [] ++ (mid.map duContentOf).flatten⟩)
            (closeStory cur acc)) from by
      simp [duMeanwhileWalk, hB, hB2, hBtxt]]
    simp [closeStory]

/-- Witness for C3: a story "One" followed by a paragraph, a `div`
wrapper and an ignored `h1`, then story "Two"; the first story's body is
exactly the paragraph and the div's matching children. -/
theorem subsectionBody_witness :
    ((∀ n ∈ [HNode.elem "p" [] [HNode.text "x"],
        HNode.elem "div" []
          [HNode.elem "p" [] [HNode.text "z"], HNode.elem "img" [] []],
        HNode.elem "h1" [] [HNode.text "skip"]],
        asciiLower (tagOf n) ≠ "h2" ∧ asciiLower (tagOf n) ≠ "h3") →
      psSpotWalk
          (HNode.elem "h3" [] [HNode.text "One"] ::
            ([HNode.elem "p" [] [HNode.text "x"],
              HNode.elem "div" []
                [HNode.elem "p" [] [HNode.text "z"],
                 HNode.elem "img" [] []],
              HNode.elem "h1" [] [HNode.text "skip"]] ++
              HNode.elem "h3" [] [HNode.text "Two"] ::
                [HNode.elem "p" [] [HNode.text "w"]])) none [] =
        psSpotWalk [HNode.elem "p" [] [HNode.text "w"]]
          (some ⟨cleanText (textContentF [HNode.text "Two"]), []⟩)
          (closeStory none [] ++
            [⟨cleanText (textContentF [HNode.text "One"]),
              ([HNode.elem "p" [] [HNode.text "x"],
                HNode.elem "div" []
                  [HNode.elem "p" [] [HNode.text "z"],
                   HNode.elem "img" [] []],
                HNode.elem "h1" [] [HNode.text "skip"]].map
                psContentOf).flatten⟩]))
    ∧ ((∀ n ∈ [HNode.elem "p" [] [HNode.text "x"],
        HNode.elem "div" []
          [HNode.elem "p" [] [HNode.text "z"], HNode.elem "img" [] []],
        HNode.elem "h1" [] [HNode.text "skip"]],
        ¬(asciiLower (tagOf n) = "h2" ∧
          cleanText (textContentN n) ≠ "") ∧
        ¬(asciiLower (tagOf n) = "h3" ∧
          cleanText (textContentN n) ≠ "")) →
      duMeanwhileWalk
          (HNode.elem "h3" [] [HNode.text "One"] ::
            ([HNode.elem "p" [] [HNode.text "x"],
              HNode.elem "div" []
                [HNode.elem "p" [] [HNode.text "z"],
                 HNode.elem "img" [] []],
              HNode.elem "h1" [] [HNode.text "skip"]] ++
              HNode.elem "h3" [] [HNode.text "Two"] ::
                [HNode.elem "p" [] [HNode.text "w"]])) none [] =
        duMeanwhileWalk [HNode.elem "p" [] [HNode.text "w"]]
          (some ⟨cleanText (textContentF [HNode.text "Two"]), []⟩)
          (closeStory none [] ++
            [⟨cleanText (textContentF [HNode.text "One"]),
              ([HNode.elem "p" [] [HNode.text "x"],
                HNode.elem "div" []
                  [HNode.elem "p" [] [HNode.text "z"],
                   HNode.elem "img" [] []],
                HNode.elem "h1" [] [HNode.text "skip"]].map
                duContentOf).flatten⟩])) :=
  subsectionBody_between_subheadings "h3" "h3" [] [] [HNode.text "One"]
    [HNode.text "Two"]
    [HNode.elem "p" [] [HNode.text "x"],
     HNode.elem "div" []
       [HNode.elem "p" [] [HNode.text "z"], HNode.elem "img" [] []],
     HNode.elem "h1" [] [HNode.text "skip"]]
    [HNode.elem "p" [] [HNode.text "w"]] none []
    (by decide) (by decide) (by decide) (by decide)

/-! ## Output path derivation (C7)

`computeOutPaths` (`build-geopolitical-summary.js` lines 181-203, and
identically in the Dubai and London builders):

  const abs = path.resolve(docxPath);
  const rel = path.relative(docxRoot, abs);
  if (rel.startsWith("..")) throw ...;
  const relNoExt = rel.replace(/\.docx$/i, "");
  const outDir = path.join(distRoot, path.dirname(relNoExt));
  const base = path.basename(relNoExt);
  return \x7b outDir, outMjmlPath: path.join(outDir, base + ".mjml"),
           outHtmlPath: path.join(outDir, base + ".html") \x7d;

The embedding takes the already-resolved path relative to the `docx`
root as its list of segments (resolution itself is the external `path`
library; the code aborts when the relative path escapes the root), and
paths are segment lists. -/

/-- Effect of `rel.replace(/\.docx$/i, "")` on the path: removes one
trailing `.docx`, matched case-insensitively. -/
def stripDocxExtL (l : List Char) : List Char :=
  if 5 ≤ l.length ∧ asciiLower ⟨l.drop (l.length - 5)⟩ = ".docx" then
    l.take (l.length - 5)
  else l

/-- The three derived output locations of one build run. -/
structure OutPaths where
  outDir : List String
  outMjmlPath : List String
  outHtmlPath : List String
deriving DecidableEq

/-- `computeOutPaths` on the relative input path's segments; `none`
models the fatal error for an empty relative path. -/
def computeOutPaths (rel : List String) : Option OutPaths :=
  match rel.reverse with
  | [] => none
  | base :: revDirs =>
    some ⟨"dist" :: revDirs.reverse,
      "dist" :: revDirs.reverse ++
        [String.mk (stripDocxExtL base.data) ++ ".mjml"],
      "dist" :: revDirs.reverse ++
        [String.mk (stripDocxExtL base.data) ++ ".html"]⟩

/-- C7 (amended): the two output paths are a pure function of the input
path that mirrors the input's directory segments under the separate
`dist` root, and two builds whose inputs differ in their directory
segments or in their extension-stripped basename stem never target the
same output path; inputs that differ only in the case of the `.docx`
extension, or only by its presence, do collide (see the
counterexample). -/
theorem outPaths_mirror_input
    (dirs₁ dirs₂ : List String) (b₁ b₂ : String) :
    computeOutPaths (dirs₁ ++ [b₁]) =
      some ⟨"dist" :: dirs₁,
        "dist" :: dirs₁ ++ [String.mk (stripDocxExtL b₁.data) ++ ".mjml"],
        "dist" :: dirs₁ ++ [String.mk (stripDocxExtL b₁.data) ++ ".html"]⟩
    ∧ (computeOutPaths (dirs₁ ++ [b₁]) = computeOutPaths (dirs₂ ++ [b₂]) →
        dirs₁ = dirs₂ ∧
          String.mk (stripDocxExtL b₁.data) =
            String.mk (stripDocxExtL b₂.data)) := by
  have heval : ∀ (d : List String) (b : String),
      computeOutPaths (d ++ [b]) =
        some ⟨"dist" :: d,
          "dist" :: d ++ [String.mk (stripDocxExtL b.data) ++ ".mjml"],
          "dist" :: d ++ [String.mk (stripDocxExtL b.data) ++ ".html"]⟩ := by
    intro d b
    rw [computeOutPaths]
    simp
  refine ⟨heval dirs₁ b₁, ?_⟩
  intro h
  rw [heval dirs₁ b₁, heval dirs₂ b₂] at h
  simp only [Option.some.injEq, OutPaths.mk.injEq, List.cons.injEq,
    List.append_cancel_left_eq, List.cons.injEq, and_true,
    true_and] at h
  obtain ⟨hdirs, hrest⟩ := h
  refine ⟨hdirs, ?_⟩
  have h2 := hrest.1
  rw [hdirs] at h2
  injection h2 with _ h3
  have h4 : String.mk (stripDocxExtL b₁.data) ++ ".mjml" =
      String.mk (stripDocxExtL b₂.data) ++ ".mjml" := by
    simpa using List.append_cancel_left h3
  have h5 := congrArg String.data h4
  rw [String.data_append, String.data_append] at h5
  have h6 := List.append_cancel_right h5
  exact congrArg String.mk h6

/-- Witness for C7 (amended): two inputs differing only in extension
case resolve to the same stem, and the theorem then forces equal
directories and stems. -/
theorem outPaths_mirror_witness :
    (["x"] : List String) = ["x"] ∧
      String.mk (stripDocxExtL "a.docx".data) =
        String.mk (stripDocxExtL "a.DOCX".data) :=
  (outPaths_mirror_input ["x"] ["x"] "a.docx" "a.DOCX").2 (by decide)

/-- Counterexample for C7 as stated: the inputs `x/feb-6` and
`x/feb-6.docx` are distinct, yet the derivation strips the `.docx`
extension case-insensitively and both target exactly the same output
paths. -/
theorem outPaths_cex :
    computeOutPaths ["x", "feb-6"] = computeOutPaths ["x", "feb-6.docx"] ∧
      (["x", "feb-6"] : List String) ≠ ["x", "feb-6.docx"] := by
  constructor
  · decide
  · decide

/-! ## The pseudo-heading heuristic (C8) -/

/-- Terminal punctuation for the title heuristic. -/
def isTerminalPunct (c : Char) : Bool :=
  c = '.' || c = '!' || c = '?'

/-- Modelled from the spec: the bold-wrapper arm of
`looksLikeTitleLine` — the paragraph's inner markup is exactly a bold
wrapper (a single `strong`/`b` child) around at most 80 characters of
text. -/
def boldWrapped80 : HNode → Bool
  | .elem _ _ [HNode.elem wtag _ inner] =>
    (asciiLower wtag = "strong" || asciiLower wtag = "b") &&
      (cleanText (textContentF inner)).length ≤ 80
  | _ => false

/-- Modelled from the spec: the short-line arm of `looksLikeTitleLine` —
the paragraph's normalized text is at most 60 characters and does not
end in terminal punctuation. -/
def shortNoPunct (p : HNode) : Bool :=
  (cleanText (textContentN p)).length ≤ 60 &&
    ((cleanText (textContentN p)).data.getLast?.all
      fun c => !isTerminalPunct c)

/-- Modelled from the spec: `looksLikeTitleLine`, the heuristic
title-detection path described in sections 4.1 and 9 of the
specification, is not present in the source files available under
`src/` (no builder there uses named stop-headings).  Following the
spec's words: a paragraph is treated as a pseudo-heading if its inner
markup is exactly a bold wrapper around at most 80 characters, or if its
text is at most 60 characters and does not end in terminal
punctuation. -/
def looksLikeTitleLine (p : HNode) : Bool :=
  boldWrapped80 p || shortNoPunct p

/-- C8: a paragraph is classified as a pseudo-heading exactly when its
inner markup is a bold wrapper around at most 80 characters, or its
normalized text is at most 60 characters and does not end in terminal
punctuation. -/
theorem looksLikeTitleLine_iff (p : HNode) :
    looksLikeTitleLine p = true ↔
      ((∃ ptag pattrs wtag wattrs inner,
          p = HNode.elem ptag pattrs [HNode.elem wtag wattrs inner] ∧
          (asciiLower wtag = "strong" ∨ asciiLower wtag = "b") ∧
          (cleanText (textContentF inner)).length ≤ 80) ∨
        ((cleanText (textContentN p)).length ≤ 60 ∧
          ∀ c ∈ (cleanText (textContentN p)).data.getLast?,
            isTerminalPunct c = false)) := by
  rw [looksLikeTitleLine, Bool.or_eq_true]
  apply or_congr
  · constructor
    · intro h
      rcases p with s | ⟨ptag, pattrs, children⟩
      · simp [boldWrapped80] at h
      · rcases children with _ | ⟨c₀, ctail⟩
        · simp [boldWrapped80] at h
        · rcases c₀ with s₀ | ⟨wtag, wattrs, inner⟩
          · simp [boldWrapped80] at h
          · rcases ctail with _ | ⟨c₁, ctail'⟩
            · rw [boldWrapped80] at h
              simp only [Bool.and_eq_true, Bool.or_eq_true,
                decide_eq_true_eq] at h
              exact ⟨ptag, pattrs, wtag, wattrs, inner, rfl, h.1, h.2⟩
            · simp [boldWrapped80] at h
    · rintro ⟨ptag, pattrs, wtag, wattrs, inner, rfl, hw, hlen⟩
      rw [boldWrapped80]
      simp only [Bool.and_eq_true, Bool.or_eq_true, decide_eq_true_eq]
      exact ⟨hw, hlen⟩
  · constructor
    · intro h
      rw [shortNoPunct] at h
      simp only [Bool.and_eq_true, decide_eq_true_eq] at h
      refine ⟨h.1, ?_⟩
      intro c hc
      have h2 := h.2
      rcases hg : (cleanText (textContentN p)).data.getLast? with _ | d
      · rw [hg] at hc; simp at hc
      · rw [hg] at hc h2
        simp only [Option.mem_def, Option.some.injEq] at hc
        subst hc
        simpa [Option.all] using h2
    · rintro ⟨h60, hp⟩
      rw [shortNoPunct]
      simp only [Bool.and_eq_true, decide_eq_true_eq]
      refine ⟨h60, ?_⟩
      rcases hg : (cleanText (textContentN p)).data.getLast? with _ | d
      · rfl
      · have := hp d (by rw [hg]; rfl)
        simp [Option.all, this]

/-! ## The London "In this edition" extractor (C10)

`extractInThisEditionLondon` (`build-london-summary.js`, lines 240-292):
find the marker among `p`/`h1`/`h2`/`h3`/`div` elements whose normalized
lowercased text starts with "in this edition"; if a `ul` follows among
the marker's later siblings, return its `li` texts (nonempty, first 12);
otherwise collect paragraph texts until a nonempty `h2`/`h3`, an empty
paragraph, or a "was this email forwarded" line, skipping lines
containing the word AQI, then de-duplicate preserving first occurrences
(`Array.from(new Set(items))`), drop empties and keep the first 12. -/

/-- Literal prefix test on character lists (the `startsWith` calls). -/
def startsWithL : List Char → List Char → Bool
  | _, [] => true
  | [], _ :: _ => false
  | c :: cs, p :: ps => c = p && startsWithL cs ps

/-- Word characters of the JavaScript `\w` class. -/
def isWordChar (c : Char) : Bool :=
  c.isAlpha || c.isDigit || c = '_'

/-- Boundary test: nothing, or not a word character. -/
def notWordB : Option Char → Bool
  | none => true
  | some c => !isWordChar c

/-- Scanner for the regex `/\bAQI\b/i` on a character list; `prev` is
the character before the current position. -/
def aqiAux (prev : Option Char) : List Char → Bool
  | a :: q :: i :: rest =>
    ((a = 'A' || a = 'a') && (q = 'Q' || q = 'q') &&
        (i = 'I' || i = 'i') && notWordB prev && notWordB rest.head?) ||
      aqiAux (some a) (q :: i :: rest)
  | c :: rest => aqiAux (some c) rest
  | [] => false

/-- The test `/\bAQI\b/i.test(txt)`. -/
def hasWordAqi (s : String) : Bool := aqiAux none s.data

/-- The London edition marker: a `p`/`h1`/`h2`/`h3`/`div` element whose
normalized lowercased text starts with "in this edition" (the code's
first two exact-match disjuncts are subsumed by the prefix test). -/
def isEditionMarkerLondon (n : HNode) : Bool :=
  match n with
  | .text _ => false
  | .elem tag _ children =>
    (["p", "h1", "h2", "h3", "div"]).contains (asciiLower tag) &&
      startsWithL (asciiLower (cleanText (textContentF children))).data
        "in this edition".data

/-- Whether the node is a `ul` element. -/
def isUlElem (n : HNode) : Bool :=
  match n with
  | .text _ => false
  | .elem tag _ _ => asciiLower tag = "ul"

/-- `marker.nextAll("ul").first()`. -/
def firstUl? : List HNode → Option HNode
  | [] => none
  | n :: rest => if isUlElem n then some n else firstUl? rest

/-- Children of a node. -/
def childrenOf : HNode → List HNode
  | .text _ => []
  | .elem _ _ cs => cs

mutual

/-- Normalized texts of all descendant `li` elements, in document order
(`ul.find("li")`). -/
def liTextsN : HNode → List String
  | .text _ => []
  | .elem tag _ children =>
    (if asciiLower tag = "li" then [cleanText (textContentF children)]
     else []) ++ liTextsF children

/-- Descendant `li` texts of a forest. -/
def liTextsF : List HNode → List String
  | [] => []
  | n :: ns => liTextsN n ++ liTextsF ns

end

/-- The fallback paragraph collection loop of the London extractor. -/
def londonFallbackWalk : List HNode → List String → List String
  | [], items => items
  | .text _ :: rest, items => londonFallbackWalk rest items
  | .elem tag _ children :: rest, items =>
    if (asciiLower tag = "h2" ∨ asciiLower tag = "h3") ∧
        cleanText (textContentF children) ≠ "" then items
    else if asciiLower tag = "p" then
      if cleanText (textContentF children) = "" then items
      else if hasWordAqi (cleanText (textContentF children)) then
        londonFallbackWalk rest items
      else if startsWithL
          (asciiLower (cleanText (textContentF children))).data
          "was this email forwarded".data then items
      else londonFallbackWalk rest
        (items ++ [cleanText (textContentF children)])
    else londonFallbackWalk rest items

/-- First-occurrence de-duplication (`Array.from(new Set(items))`). -/
def firstDedup (seen : List String) : List String → List String
  | [] => []
  | x :: xs =>
    if x ∈ seen then firstDedup seen xs
    else x :: firstDedup (x :: seen) xs

/-- `extractInThisEditionLondon` (`build-london-summary.js` lines
240-292). -/
def extractInThisEditionLondon (doc : List HNode) : List String :=
  match findMarkerSplit? isEditionMarkerLondon doc with
  | none => []
  | some rest =>
    match firstUl? rest with
    | some ul =>
      ((liTextsF (childrenOf ul)).filter (fun s => s ≠ "")).take 12
    | none =>
      ((firstDedup [] (londonFallbackWalk rest [])).filter
        (fun s => s ≠ "")).take 12

theorem firstDedup_spec :
    ∀ (xs seen : List String),
      (∀ x ∈ firstDedup seen xs, x ∉ seen) ∧
        (firstDedup seen xs).Nodup := by
  intro xs
  induction xs with
  | nil => intro seen; exact ⟨by simp [firstDedup], List.nodup_nil⟩
  | cons x xs ih =>
    intro seen
    by_cases hx : x ∈ seen
    · rw [show firstDedup seen (x :: xs) = firstDedup seen xs from by
        simp [firstDedup, hx]]
      exact ih seen
    · rw [show firstDedup seen (x :: xs) =
          x :: firstDedup (x :: seen) xs from by simp [firstDedup, hx]]
      obtain ⟨hnotin, hnd⟩ := ih (x :: seen)
      refine ⟨?_, ?_⟩
      · intro y hy
        rcases List.mem_cons.mp hy with hy | hy
        · exact hy ▸ hx
        · intro hymem
          exact hnotin y hy (by simp [hymem])
      · refine List.nodup_cons.mpr ⟨?_, hnd⟩
        intro hxin
        exact hnotin x hxin (by simp)

/-- C10: the London "In this edition" extraction returns at most 12
items for every document, and on the paragraph-collection fallback path
(marker present, no bullet list among its following siblings) the
returned list has no duplicates. -/
theorem londonEdition_bounded_and_nodup (doc : List HNode) :
    (extractInThisEditionLondon doc).length ≤ 12 ∧
      (∀ rest, findMarkerSplit? isEditionMarkerLondon doc = some rest →
        firstUl? rest = none → (extractInThisEditionLondon doc).Nodup) := by
  constructor
  · rw [extractInThisEditionLondon]
    rcases findMarkerSplit? isEditionMarkerLondon doc with _ | rest
    · simp
    · simp only
      rcases firstUl? rest with _ | ul
      · simp only
        exact List.length_take_le 12 _
      · simp only
        exact List.length_take_le 12 _
  · intro rest hrest hul
    rw [extractInThisEditionLondon, hrest]
    simp only [hul]
    have hnd : (firstDedup [] (londonFallbackWalk rest [])).Nodup :=
      (firstDedup_spec (londonFallbackWalk rest []) []).2
    exact ((hnd.filter _).sublist (List.take_sublist _ _))

/-- Witness for C10: a fallback-path document with a repeated paragraph
line; the result is within bound and duplicate-free. -/
theorem londonEdition_witness :
    (extractInThisEditionLondon
        [HNode.elem "p" [] [HNode.text "In this edition:"],
         HNode.elem "p" [] [HNode.text "A"],
         HNode.elem "p" [] [HNode.text "A"],
         HNode.elem "p" [] [HNode.text "B"]]).length ≤ 12 ∧
      (extractInThisEditionLondon
        [HNode.elem "p" [] [HNode.text "In this edition:"],
         HNode.elem "p" [] [HNode.text "A"],
         HNode.elem "p" [] [HNode.text "A"],
         HNode.elem "p" [] [HNode.text "B"]]).Nodup :=
  ⟨(londonEdition_bounded_and_nodup _).1,
    (londonEdition_bounded_and_nodup _).2
      [HNode.elem "p" [] [HNode.text "A"],
       HNode.elem "p" [] [HNode.text "A"],
       HNode.elem "p" [] [HNode.text "B"]]
      rfl rfl⟩

/-! ## The inline sanitizer (C4, C5)

`sanitizeInlineHtml` (`build.js` lines 728-743) parses the fragment
under a `<root>` wrapper, calls `rewriteAnchors` (lines 745-757: on
every `<a>`, `.attr("target", "_blank")` then `.attr("style", FIXED)`),
then iterates a snapshot of all descendant elements in document order
replacing every element with a tag outside
\x7bstrong, b, em, i, a, br\x7d by its own text content, and returns
`normalizeDashes($("root").html()?.trim() || "")`.

Embedding notes.  cheerio's `.attr(k, v)` overwrites an existing
attribute in place and otherwise appends (`setAttr`).  The snapshot
iteration is embedded as one recursion (`stripDisallowed*`): replacing
an outer disallowed element detaches its descendants, and cheerio's
`replaceWith` on a detached node is a no-op, so pre-order
snapshot-and-replace computes exactly the recursive result.  The final
serialize / `.trim()` / `normalizeDashes` step is embedded at the forest
level: `.trim()` strips string-level leading and trailing whitespace,
which on the serialized fragment is the leading/trailing whitespace of
the boundary text nodes — except U+00A0, which serializes as an entity
and is therefore never trimmed (`isTrimWs`); `normalizeDashes` on the
serialized string reaches text and attributes (after the strip pass all
remaining tag names are ASCII variants of the allow-list, so tag names
carry no dash characters and are untouched). -/

/-- cheerio `.attr(k, v)`: overwrite in place, else append. -/
def setAttr (k v : String) (attrs : List (String × String)) :
    List (String × String) :=
  if attrs.any (fun p => p.1 = k) then
    attrs.map (fun p => if p.1 = k then (k, v) else p)
  else attrs ++ [(k, v)]

/-- Attribute lookup. -/
def lookupAttrL (k : String) (attrs : List (String × String)) :
    Option String :=
  (attrs.find? (fun p => p.1 = k)).map Prod.snd

/-- Attribute lookup on a node. -/
def lookupAttr (k : String) : HNode → Option String
  | .text _ => none
  | .elem _ attrs _ => lookupAttrL k attrs

/-- The allow-list of the sanitizer. -/
def allowedTags : List String := ["strong", "b", "em", "i", "a", "br"]

mutual

/-- `rewriteAnchors`: set `target` and then `style` on every anchor. -/
def rewriteAnchorsN (style : String) : HNode → HNode
  | .text s => .text s
  | .elem tag attrs children =>
    if asciiLower tag = "a" then
      .elem tag (setAttr "style" style (setAttr "target" "_blank" attrs))
        (rewriteAnchorsF style children)
    else .elem tag attrs (rewriteAnchorsF style children)

/-- `rewriteAnchors` over a forest. -/
def rewriteAnchorsF (style : String) : List HNode → List HNode
  | [] => []
  | n :: ns => rewriteAnchorsN style n :: rewriteAnchorsF style ns

end

mutual

/-- The allow-list pass on one node: a disallowed element is replaced by
its own text content. -/
def stripDisallowedN : HNode → List HNode
  | .text s => [.text s]
  | .elem tag attrs children =>
    if allowedTags.contains (asciiLower tag) then
      [.elem tag attrs (stripDisallowedF children)]
    else [.text (textContentF children)]

/-- The allow-list pass over a forest. -/
def stripDisallowedF : List HNode → List HNode
  | [] => []
  | n :: ns => stripDisallowedN n ++ stripDisallowedF ns

end

/-- Dash normalization of one attribute. -/
def dashPair (p : String × String) : String × String :=
  (normalizeDashes p.1, normalizeDashes p.2)

mutual

/-- Forest-level effect of the string-level `normalizeDashes` on the
serialized fragment: text and attributes are normalized (tag names
reaching this point are ASCII, see the section comment). -/
def dashFixN : HNode → HNode
  | .text s => .text (normalizeDashes s)
  | .elem tag attrs children =>
    .elem tag (attrs.map dashPair) (dashFixF children)

/-- Dash normalization over a forest. -/
def dashFixF : List HNode → List HNode
  | [] => []
  | n :: ns => dashFixN n :: dashFixF ns

end

/-- Characters removed by the string-level `.trim()` on the serialized
fragment: whitespace except U+00A0 (which serializes as an entity). -/
def isTrimWs (c : Char) : Bool :=
  isJsWs c && !(c.toNat = 0xa0)

/-- Forest-level effect of the string-level `.trim()` on the leading
end: trim the first text node, dropping it if it empties. -/
def trimLeadF : List HNode → List HNode
  | [] => []
  | .text s :: rest =>
    if s.data.dropWhile isTrimWs = [] then trimLeadF rest
    else .text ⟨s.data.dropWhile isTrimWs⟩ :: rest
  | n :: rest => n :: rest

/-- Trailing-end worker; its input and output are reversed forests. -/
def trimTrailFAux : List HNode → List HNode
  | [] => []
  | .text s :: rest =>
    if (s.data.reverse.dropWhile isTrimWs).reverse = [] then
      trimTrailFAux rest
    else .text ⟨(s.data.reverse.dropWhile isTrimWs).reverse⟩ :: rest
  | n :: rest => n :: rest

/-- Forest-level effect of the string-level `.trim()`. -/
def trimEndsF (ns : List HNode) : List HNode :=
  (trimTrailFAux (trimLeadF ns).reverse).reverse

/-- The element-level part of `sanitizeInlineHtml`: rewrite anchors,
then apply the allow-list. -/
def sanitizeForest (style : String) (ns : List HNode) : List HNode :=
  stripDisallowedF (rewriteAnchorsF style ns)

/-- Full forest-level `sanitizeInlineHtml`: rewrite anchors, allow-list,
then the string-level `.trim()` and `normalizeDashes` steps. -/
def sanitizeInlineF (style : String) (ns : List HNode) : List HNode :=
  dashFixF (trimEndsF (sanitizeForest style ns))

mutual

/-- All element nodes of a node, itself included, in document order. -/
def elemsOfN : HNode → List HNode
  | .text _ => []
  | .elem tag attrs children =>
    HNode.elem tag attrs children :: elemsOfF children

/-- All element nodes of a forest in document order. -/
def elemsOfF : List HNode → List HNode
  | [] => []
  | n :: ns => elemsOfN n ++ elemsOfF ns

end

/-- The fixed presidential-summary anchor style of `build.js`
`rewriteAnchors` (the trimmed template literal, inner newlines and
16-space indentation preserved). -/
def psAnchorStyle : String :=
  "text-decoration: none;\n                " ++
  "border-bottom: 2px solid #4d3060;\n                " ++
  "color: black;"

/-- The fixed London-summary anchor style of `rewriteAnchorsLondon`. -/
def londonAnchorStyle : String :=
  "text-decoration: none; border-bottom: 2px solid #80011F; color: black;"

/-! ### Attribute lemmas -/

theorem lookupAttrL_cons (k : String) (p : String × String)
    (t : List (String × String)) :
    lookupAttrL k (p :: t) =
      if p.1 = k then some p.2 else lookupAttrL k t := by
  by_cases hp : p.1 = k
  · simp [lookupAttrL, List.find?, hp]
  · simp [lookupAttrL, List.find?, hp]

theorem lookupAttrL_update (k v : String) :
    ∀ (attrs : List (String × String)),
      attrs.any (fun p => p.1 = k) = true →
      lookupAttrL k (attrs.map (fun p => if p.1 = k then (k, v) else p)) =
        some v := by
  intro attrs
  induction attrs with
  | nil => intro h; simp at h
  | cons p t ih =>
    intro h
    by_cases hp : p.1 = k
    · rw [List.map_cons, if_pos hp, lookupAttrL_cons]
      simp
    · rw [List.map_cons, if_neg hp, lookupAttrL_cons, if_neg hp]
      apply ih
      simp only [List.any_cons, Bool.or_eq_true, decide_eq_true_eq] at h
      rcases h with h | h
      · exact absurd h hp
      · exact h

theorem lookupAttrL_update_other (k k' v : String) (hne : k' ≠ k) :
    ∀ (attrs : List (String × String)),
      lookupAttrL k'
          (attrs.map (fun p => if p.1 = k then (k, v) else p)) =
        lookupAttrL k' attrs := by
  intro attrs
  induction attrs with
  | nil => rfl
  | cons p t ih =>
    by_cases hp : p.1 = k
    · rw [List.map_cons, if_pos hp, lookupAttrL_cons, lookupAttrL_cons,
        if_neg (show ¬((k, v).1 = k') from fun he => hne he.symm),
        if_neg (show ¬(p.1 = k') from fun he => hne (he ▸ hp)), ih]
    · rw [List.map_cons, if_neg hp, lookupAttrL_cons, lookupAttrL_cons,
        ih]

theorem lookupAttrL_append_new (k v : String) :
    ∀ (attrs : List (String × String)),
      attrs.any (fun p => p.1 = k) = false →
      lookupAttrL k (attrs ++ [(k, v)]) = some v := by
  intro attrs
  induction attrs with
  | nil =>
    intro _
    rw [List.nil_append, lookupAttrL_cons, if_pos rfl]
  | cons p t ih =>
    intro h
    simp only [List.any_cons, Bool.or_eq_false_iff,
      decide_eq_false_iff_not] at h
    rw [List.cons_append, lookupAttrL_cons, if_neg h.1]
    exact ih (by simpa using h.2)

theorem lookupAttrL_append_other (k k' v : String) (hne : k' ≠ k) :
    ∀ (attrs : List (String × String)),
      lookupAttrL k' (attrs ++ [(k, v)]) = lookupAttrL k' attrs := by
  intro attrs
  induction attrs with
  | nil =>
    rw [List.nil_append, lookupAttrL_cons,
      if_neg (show ¬((k, v).1 = k') from fun he => hne he.symm)]
  | cons p t ih =>
    rw [List.cons_append, lookupAttrL_cons, lookupAttrL_cons, ih]

theorem lookupAttrL_setAttr_same (k v : String)
    (attrs : List (String × String)) :
    lookupAttrL k (setAttr k v attrs) = some v := by
  rw [setAttr]
  by_cases h : attrs.any (fun p => p.1 = k) = true
  · rw [if_pos h]
    exact lookupAttrL_update k v attrs h
  · rw [if_neg h]
    exact lookupAttrL_append_new k v attrs (Bool.eq_false_iff.mpr h)

theorem lookupAttrL_setAttr_other {k k' : String} (hne : k' ≠ k)
    (v : String) (attrs : List (String × String)) :
    lookupAttrL k' (setAttr k v attrs) = lookupAttrL k' attrs := by
  rw [setAttr]
  by_cases h : attrs.any (fun p => p.1 = k) = true
  · rw [if_pos h]
    exact lookupAttrL_update_other k k' v hne attrs
  · rw [if_neg h]
    exact lookupAttrL_append_other k k' v hne attrs

theorem elemsOfF_append (a b : List HNode) :
    elemsOfF (a ++ b) = elemsOfF a ++ elemsOfF b := by
  induction a with
  | nil => simp [elemsOfF]
  | cons n ns ih => simp [elemsOfF, ih, List.append_assoc]

/-! ### Stage A: elements of the strip-and-rewrite output -/

/-- The C4 element property: allow-listed tag; anchors carry the forced
attributes. -/
def SanGoodE (style : String) (e : HNode) : Prop :=
  allowedTags.contains (asciiLower (tagOf e)) = true ∧
  (asciiLower (tagOf e) = "a" →
    lookupAttr "target" e = some "_blank" ∧
    lookupAttr "style" e = some style)

mutual

theorem sanitizeForest_goodN (style : String) :
    ∀ (n : HNode),
      ∀ e ∈ elemsOfF (stripDisallowedN (rewriteAnchorsN style n)),
        SanGoodE style e
  | .text s => by
    intro e he
    simp [rewriteAnchorsN, stripDisallowedN, elemsOfF, elemsOfN] at he
  | .elem tag attrs children => by
    intro e he
    by_cases ha : asciiLower tag = "a"
    · rw [rewriteAnchorsN] at he
      rw [if_pos ha] at he
      have hallow : allowedTags.contains (asciiLower tag) = true := by
        rw [ha]; decide
      rw [stripDisallowedN, if_pos hallow] at he
      rw [show elemsOfF [HNode.elem tag
          (setAttr "style" style (setAttr "target" "_blank" attrs))
          (stripDisallowedF (rewriteAnchorsF style children))] =
        HNode.elem tag
          (setAttr "style" style (setAttr "target" "_blank" attrs))
          (stripDisallowedF (rewriteAnchorsF style children)) ::
          elemsOfF (stripDisallowedF (rewriteAnchorsF style children))
        from by simp [elemsOfF, elemsOfN]] at he
      rcases List.mem_cons.mp he with he | he
      · subst he
        refine ⟨by simpa [tagOf] using hallow, fun _ => ?_⟩
        constructor
        · rw [show lookupAttr "target" (HNode.elem tag
              (setAttr "style" style (setAttr "target" "_blank" attrs))
              (stripDisallowedF (rewriteAnchorsF style children))) =
            lookupAttrL "target"
              (setAttr "style" style (setAttr "target" "_blank" attrs))
            from rfl]
          rw [lookupAttrL_setAttr_other (by decide) style,
            lookupAttrL_setAttr_same]
        · rw [show lookupAttr "style" (HNode.elem tag
              (setAttr "style" style (setAttr "target" "_blank" attrs))
              (stripDisallowedF (rewriteAnchorsF style children))) =
            lookupAttrL "style"
              (setAttr "style" style (setAttr "target" "_blank" attrs))
            from rfl]
          rw [lookupAttrL_setAttr_same]
      · exact sanitizeForest_goodF style children e he
    · rw [rewriteAnchorsN] at he
      rw [if_neg ha] at he
      by_cases hallow : allowedTags.contains (asciiLower tag) = true
      · rw [stripDisallowedN, if_pos hallow] at he
        rw [show elemsOfF [HNode.elem tag attrs
            (stripDisallowedF (rewriteAnchorsF style children))] =
          HNode.elem tag attrs
            (stripDisallowedF (rewriteAnchorsF style children)) ::
            elemsOfF (stripDisallowedF (rewriteAnchorsF style children))
          from by simp [elemsOfF, elemsOfN]] at he
        rcases List.mem_cons.mp he with he | he
        · subst he
          exact ⟨by simpa [tagOf] using hallow,
            fun hcontra => absurd (by simpa [tagOf] using hcontra) ha⟩
        · exact sanitizeForest_goodF style children e he
      · rw [stripDisallowedN,
          if_neg (by simpa using hallow)] at he
        simp [elemsOfF, elemsOfN] at he

theorem sanitizeForest_goodF (style : String) :
    ∀ (ns : List HNode),
      ∀ e ∈ elemsOfF (stripDisallowedF (rewriteAnchorsF style ns)),
        SanGoodE style e
  | [] => by intro e he; simp [rewriteAnchorsF, stripDisallowedF,
      elemsOfF] at he
  | n :: ns => by
    intro e he
    rw [rewriteAnchorsF, stripDisallowedF, elemsOfF_append] at he
    rcases List.mem_append.mp he with he | he
    · exact sanitizeForest_goodN style n e he
    · exact sanitizeForest_goodF style ns e he

end

/-! ### Stage B: trimming does not change the element population -/

theorem trimLeadF_elems (l : List HNode) :
    elemsOfF (trimLeadF l) = elemsOfF l := by
  induction l with
  | nil => rfl
  | cons n rest ih =>
    cases n with
    | text s =>
      rw [trimLeadF]
      by_cases h : s.data.dropWhile isTrimWs = []
      · rw [if_pos h, ih]
        simp [elemsOfF, elemsOfN]
      · rw [if_neg h]
        simp [elemsOfF, elemsOfN]
    | elem t a c =>
      rw [trimLeadF]
      exact fun s h => HNode.noConfusion h

theorem trimTrailFAux_elems (l : List HNode) :
    elemsOfF (trimTrailFAux l) = elemsOfF l := by
  induction l with
  | nil => rfl
  | cons n rest ih =>
    cases n with
    | text s =>
      rw [trimTrailFAux]
      by_cases h : (s.data.reverse.dropWhile isTrimWs).reverse = []
      · rw [if_pos h, ih]
        simp [elemsOfF, elemsOfN]
      · rw [if_neg h]
        simp [elemsOfF, elemsOfN]
    | elem t a c =>
      rw [trimTrailFAux]
      exact fun s h => HNode.noConfusion h

theorem elemsOfF_reverse_mem (e : HNode) :
    ∀ (l : List HNode), e ∈ elemsOfF l.reverse ↔ e ∈ elemsOfF l := by
  intro l
  induction l with
  | nil => simp
  | cons n ns ih =>
    rw [List.reverse_cons, elemsOfF_append]
    simp only [elemsOfF, List.mem_append, ih, List.append_nil,
      elemsOfN]
    constructor
    · rintro (h | h)
      · right; exact h
      · left; exact (by simpa [elemsOfF] using h)
    · rintro (h | h)
      · right; simpa [elemsOfF] using h
      · left; exact h

theorem trimEndsF_elems_mem (e : HNode) (l : List HNode) :
    e ∈ elemsOfF (trimEndsF l) ↔ e ∈ elemsOfF l := by
  rw [trimEndsF, elemsOfF_reverse_mem, trimTrailFAux_elems,
    elemsOfF_reverse_mem, trimLeadF_elems]

/-! ### Stage C: the dash pass maps elements one-to-one -/

mutual

theorem dashFixN_elems : ∀ (n e : HNode), e ∈ elemsOfN (dashFixN n) →
    ∃ tag attrs children,
      e = HNode.elem tag (attrs.map dashPair) (dashFixF children) ∧
      HNode.elem tag attrs children ∈ elemsOfN n
  | .text s, e => by
    intro he
    simp [dashFixN, elemsOfN] at he
  | .elem tag attrs children, e => by
    intro he
    rw [dashFixN] at he
    rw [show elemsOfN (HNode.elem tag (attrs.map dashPair)
        (dashFixF children)) =
      HNode.elem tag (attrs.map dashPair) (dashFixF children) ::
        elemsOfF (dashFixF children) from rfl] at he
    rcases List.mem_cons.mp he with he | he
    · exact ⟨tag, attrs, children, he, by
        rw [elemsOfN]; exact List.mem_cons_self _ _⟩
    · obtain ⟨t, a, c, heq, hm⟩ := dashFixF_elems children e he
      exact ⟨t, a, c, heq, by
        rw [elemsOfN]; exact List.mem_cons_of_mem _ hm⟩

theorem dashFixF_elems : ∀ (ns : List HNode) (e : HNode),
    e ∈ elemsOfF (dashFixF ns) →
    ∃ tag attrs children,
      e = HNode.elem tag (attrs.map dashPair) (dashFixF children) ∧
      HNode.elem tag attrs children ∈ elemsOfF ns
  | [], e => by
    intro he
    simp [dashFixF, elemsOfF] at he
  | n :: ns, e => by
    intro he
    rw [dashFixF, elemsOfF] at he
    rcases List.mem_append.mp he with he | he
    · obtain ⟨t, a, c, heq, hm⟩ := dashFixN_elems n e he
      exact ⟨t, a, c, heq, by
        rw [elemsOfF]; exact List.mem_append_left _ hm⟩
    · obtain ⟨t, a, c, heq, hm⟩ := dashFixF_elems ns e he
      exact ⟨t, a, c, heq, by
        rw [elemsOfF]; exact List.mem_append_right _ hm⟩

end

theorem map_dashFix_eq :
    ∀ (t l : List Char), (∀ c ∈ t, c ≠ '-') → l.map dashFix = t →
      l = t := by
  intro t
  induction t with
  | nil =>
    intro l _ h
    exact List.map_eq_nil_iff.mp h
  | cons d t' ih =>
    intro l ht h
    cases l with
    | nil => simp at h
    | cons c l' =>
      rw [List.map_cons] at h
      injection h with h1 h2
      have hd : d ≠ '-' := ht d (by simp)
      have hc : isDashChar c = false := by
        by_contra hc
        simp only [Bool.not_eq_false] at hc
        rw [dashFix, if_pos hc] at h1
        exact hd h1.symm
      rw [dashFix_eq_self hc] at h1
      rw [h1, ih l' (fun x hx => ht x (by simp [hx])) h2]

theorem normalizeDashes_fixed {s : String}
    (h : ∀ c ∈ s.data, isDashChar c = false) :
    normalizeDashes s = s := by
  have : normalizeDashesL s.data = s.data := normalizeDashesL_eq_self _ h
  calc normalizeDashes s = ⟨normalizeDashesL s.data⟩ := rfl
    _ = ⟨s.data⟩ := by rw [this]
    _ = s := rfl

theorem lookupAttrL_map_dashPair (k : String)
    (hk : ∀ c ∈ k.data, c ≠ '-')
    (hk2 : ∀ c ∈ k.data, isDashChar c = false) :
    ∀ (attrs : List (String × String)),
      lookupAttrL k (attrs.map dashPair) =
        (lookupAttrL k attrs).map normalizeDashes := by
  intro attrs
  induction attrs with
  | nil => rfl
  | cons p t ih =>
    rw [List.map_cons, lookupAttrL_cons, lookupAttrL_cons]
    by_cases hp : p.1 = k
    · rw [if_pos (show (dashPair p).1 = k from by
        rw [dashPair, hp]
        exact normalizeDashes_fixed hk2), if_pos hp]
      rfl
    · rw [if_neg (show ¬((dashPair p).1 = k) from ?_), if_neg hp, ih]
      intro he
      rw [dashPair] at he
      have h2 := congrArg String.data he
      have h3 : p.1.data.map dashFix = k.data := h2
      have h4 := map_dashFix_eq k.data p.1.data hk h3
      exact hp (congrArg String.mk h4)

/-- C4: every hyperlink element present in the sanitizer's output
carries `target="_blank"` and exactly the fixed inline presentational
style of `build.js` `rewriteAnchors` (any pre-existing `style` value is
overwritten), and every element whose tag is outside the allow-list
\x7bstrong, b, em, i, a, br\x7d is replaced by its own text content. -/
theorem sanitizer_anchors_forced_and_allowlist (ns : List HNode) :
    (∀ e ∈ elemsOfF (sanitizeInlineF psAnchorStyle ns),
      allowedTags.contains (asciiLower (tagOf e)) = true ∧
      (asciiLower (tagOf e) = "a" →
        lookupAttr "target" e = some "_blank" ∧
        lookupAttr "style" e = some psAnchorStyle))
    ∧ ∀ tag attrs children,
        allowedTags.contains (asciiLower tag) = false →
        stripDisallowedN (HNode.elem tag attrs children) =
          [HNode.text (textContentF children)] := by
  constructor
  · intro e he
    rw [sanitizeInlineF] at he
    obtain ⟨t, a, c, rfl, hm⟩ :=
      dashFixF_elems (trimEndsF (sanitizeForest psAnchorStyle ns)) e he
    rw [trimEndsF_elems_mem] at hm
    rw [sanitizeForest] at hm
    have hgood := sanitizeForest_goodF psAnchorStyle ns
      (HNode.elem t a c) hm
    obtain ⟨hallow, hanchor⟩ := hgood
    refine ⟨by simpa [tagOf] using hallow, ?_⟩
    intro ha
    have ha' : asciiLower (tagOf (HNode.elem t a c)) = "a" := by
      simpa [tagOf] using ha
    obtain ⟨htar, hsty⟩ := hanchor ha'
    constructor
    · rw [show lookupAttr "target"
          (HNode.elem t (a.map dashPair) (dashFixF c)) =
        lookupAttrL "target" (a.map dashPair) from rfl]
      rw [lookupAttrL_map_dashPair "target" (by decide) (by decide)]
      rw [show lookupAttrL "target" a =
        lookupAttr "target" (HNode.elem t a c) from rfl, htar]
      rw [Option.map_some']
      rw [normalizeDashes_fixed (by decide)]
    · rw [show lookupAttr "style"
          (HNode.elem t (a.map dashPair) (dashFixF c)) =
        lookupAttrL "style" (a.map dashPair) from rfl]
      rw [lookupAttrL_map_dashPair "style" (by decide) (by decide)]
      rw [show lookupAttrL "style" a =
        lookupAttr "style" (HNode.elem t a c) from rfl, hsty]
      rw [Option.map_some']
      rw [normalizeDashes_fixed (by decide)]
  · intro tag attrs children h
    rw [stripDisallowedN, if_neg (by simpa using h)]

/-- Witness for C4: an anchor with a pre-existing style and a `span`
around bold text; in the output the anchor carries the forced
attributes, and the disallowed `span` collapses to its text. -/
theorem sanitizer_anchors_witness :
    (allowedTags.contains (asciiLower (tagOf
        (HNode.elem "a" [("style", psAnchorStyle), ("target", "_blank")]
          [HNode.text "x"]))) = true ∧
      (asciiLower (tagOf
          (HNode.elem "a" [("style", psAnchorStyle), ("target", "_blank")]
            [HNode.text "x"])) = "a" →
        lookupAttr "target"
            (HNode.elem "a" [("style", psAnchorStyle), ("target", "_blank")]
              [HNode.text "x"]) = some "_blank" ∧
        lookupAttr "style"
            (HNode.elem "a" [("style", psAnchorStyle), ("target", "_blank")]
              [HNode.text "x"]) = some psAnchorStyle))
    ∧ stripDisallowedN
        (HNode.elem "span" [] [HNode.text "a", HNode.elem "b" []
          [HNode.text "c"]]) =
      [HNode.text (textContentF [HNode.text "a", HNode.elem "b" []
        [HNode.text "c"]])] :=
  ⟨(sanitizer_anchors_forced_and_allowlist
      [HNode.elem "a" [("style", "old")] [HNode.text "x"]]).1
    (HNode.elem "a" [("style", psAnchorStyle), ("target", "_blank")]
      [HNode.text "x"])
    (by
      rw [show elemsOfF (sanitizeInlineF psAnchorStyle
          [HNode.elem "a" [("style", "old")] [HNode.text "x"]]) =
        [HNode.elem "a" [("style", psAnchorStyle), ("target", "_blank")]
          [HNode.text "x"]] from rfl]
      exact List.mem_singleton.mpr rfl),
   (sanitizer_anchors_forced_and_allowlist
      [HNode.elem "a" [("style", "old")] [HNode.text "x"]]).2
    "span" [] [HNode.text "a", HNode.elem "b" [] [HNode.text "c"]]
    (by decide)⟩

/-! ### C5: idempotence of the sanitize pipeline

Invariants of the pass-1 output: every element has an allow-listed tag;
every anchor's attribute list contains `target` and `style` keys whose
every binding carries the forced value (`canonAttrs`); all text and
attribute strings are dash-free; the forest is trimmed at both ends.  On
such a forest every pipeline stage is the identity. -/

/-- Canonical anchor attributes: a `target` and a `style` binding exist,
and every `target` binding is `"_blank"`, every `style` binding the
fixed style. -/
def canonAttrs (style : String) (a : List (String × String)) : Bool :=
  a.any (fun p => p.1 = "target") && a.any (fun p => p.1 = "style") &&
    a.all (fun p => !(p.1 = "target") || p.2 = "_blank") &&
    a.all (fun p => !(p.1 = "style") || p.2 = style)

theorem any_setAttr_same (k v : String) (a : List (String × String)) :
    (setAttr k v a).any (fun p => p.1 = k) = true := by
  rw [setAttr]
  by_cases h : a.any (fun p => p.1 = k) = true
  · rw [if_pos h]
    rw [List.any_eq_true] at h ⊢
    obtain ⟨p, hp, hk⟩ := h
    refine ⟨(k, v), List.mem_map.mpr ⟨p, hp, ?_⟩, by simp⟩
    simp only [decide_eq_true_eq] at hk
    rw [if_pos hk]
  · rw [if_neg h]
    rw [List.any_eq_true]
    exact ⟨(k, v), by simp⟩

theorem any_setAttr_mono (k v k' : String) (a : List (String × String))
    (h : a.any (fun p => p.1 = k') = true) :
    (setAttr k v a).any (fun p => p.1 = k') = true := by
  rw [setAttr]
  by_cases hc : a.any (fun p => p.1 = k) = true
  · rw [if_pos hc]
    rw [List.any_eq_true] at h ⊢
    obtain ⟨p, hp, hk⟩ := h
    simp only [decide_eq_true_eq] at hk
    by_cases hpk : p.1 = k
    · refine ⟨(k, v), List.mem_map.mpr ⟨p, hp, by rw [if_pos hpk]⟩, ?_⟩
      simp only [decide_eq_true_eq]
      rw [← hpk, hk]
    · exact ⟨p, List.mem_map.mpr ⟨p, hp, by rw [if_neg hpk]⟩,
        by simp [hk]⟩
  · rw [if_neg hc]
    rw [List.any_eq_true] at h ⊢
    obtain ⟨p, hp, hk⟩ := h
    exact ⟨p, by simp [hp], hk⟩

theorem all_setAttr_same (k v : String) (a : List (String × String)) :
    (setAttr k v a).all (fun p => !(p.1 = k) || p.2 = v) = true := by
  rw [setAttr]
  by_cases h : a.any (fun p => p.1 = k) = true
  · rw [if_pos h]
    rw [List.all_eq_true]
    intro p hp
    obtain ⟨q, _, hq⟩ := List.mem_map.mp hp
    by_cases hqk : q.1 = k
    · rw [if_pos hqk] at hq
      subst hq
      simp
    · rw [if_neg hqk] at hq
      subst hq
      simp [hqk]
  · rw [if_neg h]
    rw [List.all_eq_true]
    intro p hp
    rcases List.mem_append.mp hp with hp | hp
    · have : ¬(p.1 = k) := by
        intro he
        rw [List.any_eq_true] at h
        exact h ⟨p, hp, by simp [he]⟩
      simp [this]
    · rw [List.mem_singleton.mp hp]
      simp

theorem all_setAttr_other (k v k' v' : String) (hne : k' ≠ k)
    (a : List (String × String))
    (h : a.all (fun p => !(p.1 = k') || p.2 = v') = true) :
    (setAttr k v a).all (fun p => !(p.1 = k') || p.2 = v') = true := by
  rw [setAttr]
  rw [List.all_eq_true] at h
  by_cases hc : a.any (fun p => p.1 = k) = true
  · rw [if_pos hc]
    rw [List.all_eq_true]
    intro p hp
    obtain ⟨q, hqmem, hq⟩ := List.mem_map.mp hp
    by_cases hqk : q.1 = k
    · rw [if_pos hqk] at hq
      subst hq
      have hkk : ¬((k, v).1 = k') := fun he => hne he.symm
      simp [hkk]
    · rw [if_neg hqk] at hq
      subst hq
      exact h q hqmem
  · rw [if_neg hc]
    rw [List.all_eq_true]
    intro p hp
    rcases List.mem_append.mp hp with hp | hp
    · exact h p hp
    · rw [List.mem_singleton.mp hp]
      have hkk : ¬((k, v).1 = k') := fun he => hne he.symm
      simp [hkk]

theorem canonAttrs_setAttr (style : String)
    (a : List (String × String)) :
    canonAttrs style
      (setAttr "style" style (setAttr "target" "_blank" a)) = true := by
  rw [canonAttrs]
  simp only [Bool.and_eq_true]
  refine ⟨⟨⟨?_, ?_⟩, ?_⟩, ?_⟩
  · exact any_setAttr_mono "style" style "target" _
      (any_setAttr_same "target" "_blank" a)
  · exact any_setAttr_same "style" style _
  · exact all_setAttr_other "style" style "target" "_blank"
      (by decide) _ (all_setAttr_same "target" "_blank" a)
  · exact all_setAttr_same "style" style _

theorem map_update_id (k v : String) :
    ∀ (a : List (String × String)),
      (∀ p ∈ a, p.1 = k → p.2 = v) →
      a.map (fun p => if p.1 = k then (k, v) else p) = a := by
  intro a
  induction a with
  | nil => intro _; rfl
  | cons p t ih =>
    intro h
    rw [List.map_cons, ih (fun q hq hqk => h q (by simp [hq]) hqk)]
    by_cases hp : p.1 = k
    · rw [if_pos hp]
      have hv : p.2 = v := h p (by simp) hp
      rcases p with ⟨p1, p2⟩
      simp only at hp hv
      rw [hp, hv]
    · rw [if_neg hp]

theorem setAttr_id (k v : String) (a : List (String × String))
    (h1 : a.any (fun p => p.1 = k) = true)
    (h2 : a.all (fun p => !(p.1 = k) || p.2 = v) = true) :
    setAttr k v a = a := by
  rw [setAttr, if_pos h1]
  apply map_update_id
  intro p hp hpk
  rw [List.all_eq_true] at h2
  have := h2 p hp
  simpa [hpk] using this

theorem canonAttrs_rewrite_id (style : String)
    (a : List (String × String)) (h : canonAttrs style a = true) :
    setAttr "style" style (setAttr "target" "_blank" a) = a := by
  rw [canonAttrs] at h
  simp only [Bool.and_eq_true] at h
  obtain ⟨⟨⟨hat, has⟩, hvt⟩, hvs⟩ := h
  rw [setAttr_id "target" "_blank" a hat hvt,
    setAttr_id "style" style a has hvs]

/-- Attributes of a node. -/
def attrsOf : HNode → List (String × String)
  | .text _ => []
  | .elem _ a _ => a

/-- The pass-1 element invariant: allow-listed tag, canonical anchor
attributes. -/
def SanCleanE (style : String) (e : HNode) : Prop :=
  allowedTags.contains (asciiLower (tagOf e)) = true ∧
  (asciiLower (tagOf e) = "a" → canonAttrs style (attrsOf e) = true)

mutual

theorem sanitizeForest_cleanN (style : String) :
    ∀ (n : HNode),
      ∀ e ∈ elemsOfF (stripDisallowedN (rewriteAnchorsN style n)),
        SanCleanE style e
  | .text s => by
    intro e he
    simp [rewriteAnchorsN, stripDisallowedN, elemsOfF, elemsOfN] at he
  | .elem tag attrs children => by
    intro e he
    by_cases ha : asciiLower tag = "a"
    · rw [rewriteAnchorsN, if_pos ha] at he
      have hallow : allowedTags.contains (asciiLower tag) = true := by
        rw [ha]; decide
      rw [stripDisallowedN, if_pos hallow] at he
      rw [show elemsOfF [HNode.elem tag
          (setAttr "style" style (setAttr "target" "_blank" attrs))
          (stripDisallowedF (rewriteAnchorsF style children))] =
        HNode.elem tag
          (setAttr "style" style (setAttr "target" "_blank" attrs))
          (stripDisallowedF (rewriteAnchorsF style children)) ::
          elemsOfF (stripDisallowedF (rewriteAnchorsF style children))
        from by simp [elemsOfF, elemsOfN]] at he
      rcases List.mem_cons.mp he with he | he
      · subst he
        exact ⟨by simpa [tagOf] using hallow,
          fun _ => by simpa [attrsOf] using canonAttrs_setAttr style attrs⟩
      · exact sanitizeForest_cleanF style children e he
    · rw [rewriteAnchorsN, if_neg ha] at he
      by_cases hallow : allowedTags.contains (asciiLower tag) = true
      · rw [stripDisallowedN, if_pos hallow] at he
        rw [show elemsOfF [HNode.elem tag attrs
            (stripDisallowedF (rewriteAnchorsF style children))] =
          HNode.elem tag attrs
            (stripDisallowedF (rewriteAnchorsF style children)) ::
            elemsOfF (stripDisallowedF (rewriteAnchorsF style children))
          from by simp [elemsOfF, elemsOfN]] at he
        rcases List.mem_cons.mp he with he | he
        · subst he
          exact ⟨by simpa [tagOf] using hallow,
            fun hcontra => absurd (by simpa [tagOf] using hcontra) ha⟩
        · exact sanitizeForest_cleanF style children e he
      · rw [stripDisallowedN, if_neg (by simpa using hallow)] at he
        simp [elemsOfF, elemsOfN] at he

theorem sanitizeForest_cleanF (style : String) :
    ∀ (ns : List HNode),
      ∀ e ∈ elemsOfF (stripDisallowedF (rewriteAnchorsF style ns)),
        SanCleanE style e
  | [] => by
    intro e he
    simp [rewriteAnchorsF, stripDisallowedF, elemsOfF] at he
  | n :: ns => by
    intro e he
    rw [rewriteAnchorsF, stripDisallowedF, elemsOfF_append] at he
    rcases List.mem_append.mp he with he | he
    · exact sanitizeForest_cleanN style n e he
    · exact sanitizeForest_cleanF style ns e he

end

theorem normalizeDashes_eq_target {s t : String}
    (ht : ∀ c ∈ t.data, c ≠ '-') (h : normalizeDashes s = t) : s = t := by
  have h2 : s.data.map dashFix = t.data := congrArg String.data h
  exact congrArg String.mk (map_dashFix_eq t.data s.data ht h2)

theorem canonAttrs_map_dash (style : String)
    (hstyle : ∀ c ∈ style.data, isDashChar c = false)
    (a : List (String × String)) (h : canonAttrs style a = true) :
    canonAttrs style (a.map dashPair) = true := by
  rw [canonAttrs] at h ⊢
  simp only [Bool.and_eq_true] at h ⊢
  obtain ⟨⟨⟨hat, has⟩, hvt⟩, hvs⟩ := h
  refine ⟨⟨⟨?_, ?_⟩, ?_⟩, ?_⟩
  · rw [List.any_eq_true] at hat ⊢
    obtain ⟨p, hp, hk⟩ := hat
    simp only [decide_eq_true_eq] at hk
    refine ⟨dashPair p, List.mem_map.mpr ⟨p, hp, rfl⟩, ?_⟩
    simp only [decide_eq_true_eq, dashPair, hk]
    exact normalizeDashes_fixed (by decide)
  · rw [List.any_eq_true] at has ⊢
    obtain ⟨p, hp, hk⟩ := has
    simp only [decide_eq_true_eq] at hk
    refine ⟨dashPair p, List.mem_map.mpr ⟨p, hp, rfl⟩, ?_⟩
    simp only [decide_eq_true_eq, dashPair, hk]
    exact normalizeDashes_fixed (by decide)
  · rw [List.all_eq_true] at hvt ⊢
    intro q hq
    obtain ⟨p, hp, rfl⟩ := List.mem_map.mp hq
    by_cases hk : (dashPair p).1 = "target"
    · rw [dashPair] at hk
      have hk' : p.1 = "target" := normalizeDashes_eq_target (by decide) hk
      have := hvt p hp
      rw [hk'] at this
      simp at this
      have hv2 : (dashPair p).2 = "_blank" := by
        rw [dashPair]
        simp only
        rw [this]
        exact normalizeDashes_fixed (by decide)
      simp [hk, hv2]
    · simp [hk]
  · rw [List.all_eq_true] at hvs ⊢
    intro q hq
    obtain ⟨p, hp, rfl⟩ := List.mem_map.mp hq
    by_cases hk : (dashPair p).1 = "style"
    · rw [dashPair] at hk
      have hk' : p.1 = "style" := normalizeDashes_eq_target (by decide) hk
      have := hvs p hp
      rw [hk'] at this
      simp at this
      have hv2 : (dashPair p).2 = style := by
        rw [dashPair]
        simp only
        rw [this]
        exact normalizeDashes_fixed hstyle
      simp [hk, hv2]
    · simp [hk]

mutual

theorem rewriteAnchors_idN (style : String) :
    ∀ (n : HNode), (∀ e ∈ elemsOfN n, SanCleanE style e) →
      rewriteAnchorsN style n = n
  | .text s => fun _ => rfl
  | .elem tag attrs c => by
    intro h
    have hrec : rewriteAnchorsF style c = c :=
      rewriteAnchors_idF style c (fun e he => h e (by
        rw [elemsOfN]; exact List.mem_cons_of_mem _ he))
    by_cases ha : asciiLower tag = "a"
    · have htop := h (HNode.elem tag attrs c) (by
        rw [elemsOfN]; exact List.mem_cons_self _ _)
      have hcanon := htop.2 (by simpa [tagOf] using ha)
      rw [rewriteAnchorsN, if_pos ha, hrec,
        canonAttrs_rewrite_id style attrs
          (by simpa [attrsOf] using hcanon)]
    · rw [rewriteAnchorsN, if_neg ha, hrec]

theorem rewriteAnchors_idF (style : String) :
    ∀ (ns : List HNode), (∀ e ∈ elemsOfF ns, SanCleanE style e) →
      rewriteAnchorsF style ns = ns
  | [] => fun _ => rfl
  | n :: ns => by
    intro h
    rw [rewriteAnchorsF,
      rewriteAnchors_idN style n (fun e he => h e (by
        rw [elemsOfF]; exact List.mem_append_left _ he)),
      rewriteAnchors_idF style ns (fun e he => h e (by
        rw [elemsOfF]; exact List.mem_append_right _ he))]

end

mutual

theorem stripDisallowed_idN :
    ∀ (n : HNode),
      (∀ e ∈ elemsOfN n,
        allowedTags.contains (asciiLower (tagOf e)) = true) →
      stripDisallowedN n = [n]
  | .text s => fun _ => rfl
  | .elem tag attrs c => by
    intro h
    have htop := h (HNode.elem tag attrs c) (by
      rw [elemsOfN]; exact List.mem_cons_self _ _)
    rw [stripDisallowedN, if_pos (by simpa [tagOf] using htop),
      stripDisallowed_idF c (fun e he => h e (by
        rw [elemsOfN]; exact List.mem_cons_of_mem _ he))]

theorem stripDisallowed_idF :
    ∀ (ns : List HNode),
      (∀ e ∈ elemsOfF ns,
        allowedTags.contains (asciiLower (tagOf e)) = true) →
      stripDisallowedF ns = ns
  | [] => fun _ => rfl
  | n :: ns => by
    intro h
    rw [stripDisallowedF,
      stripDisallowed_idN n (fun e he => h e (by
        rw [elemsOfF]; exact List.mem_append_left _ he)),
      stripDisallowed_idF ns (fun e he => h e (by
        rw [elemsOfF]; exact List.mem_append_right _ he))]
    rfl

end

/-! ### Stage E: the trim pass is idempotent -/

/-- A node that the leading trim leaves unchanged. -/
def nodeLeadOk : HNode → Prop
  | .text s => s.data ≠ [] ∧ ∀ c ∈ s.data.head?, isTrimWs c = false
  | .elem _ _ _ => True

/-- A node that the trailing trim leaves unchanged. -/
def nodeTrailOk : HNode → Prop
  | .text s => s.data ≠ [] ∧ ∀ c ∈ s.data.reverse.head?, isTrimWs c = false
  | .elem _ _ _ => True

/-- The leading end of a forest is already trimmed. -/
def leadOkF : List HNode → Prop
  | [] => True
  | n :: _ => nodeLeadOk n

/-- The head of a reversed forest is already trailing-trimmed. -/
def trailOkR : List HNode → Prop
  | [] => True
  | n :: _ => nodeTrailOk n

theorem head_dropWhile_false {p : Char → Bool} :
    ∀ (l : List Char), ∀ c ∈ (l.dropWhile p).head?, p c = false := by
  intro l
  induction l with
  | nil => intro c hc; simp [List.dropWhile] at hc
  | cons a t ih =>
    intro c hc
    by_cases hp : p a = true
    · rw [List.dropWhile_cons_of_pos hp] at hc
      exact ih c hc
    · rw [List.dropWhile_cons_of_neg hp] at hc
      simp only [List.head?_cons, Option.mem_def, Option.some.injEq] at hc
      subst hc
      exact Bool.eq_false_iff.mpr hp

theorem mem_false_dropWhile_ne_nil {p : Char → Bool} {c : Char}
    (hc : p c = false) :
    ∀ (l : List Char), c ∈ l → l.dropWhile p ≠ [] := by
  intro l
  induction l with
  | nil => intro h; simp at h
  | cons a t ih =>
    intro hm
    by_cases hp : p a = true
    · rw [List.dropWhile_cons_of_pos hp]
      rcases List.mem_cons.mp hm with rfl | hm
      · rw [hc] at hp; exact absurd hp (by simp)
      · exact ih hm
    · rw [List.dropWhile_cons_of_neg hp]
      simp

theorem head?_append_left {α : Type} (l1 l2 : List α) (h : l1 ≠ []) :
    (l1 ++ l2).head? = l1.head? := by
  cases l1 with
  | nil => exact absurd rfl h
  | cons a t => rfl

theorem leadOkF_append (l1 l2 : List HNode) (h : l1 ≠ []) :
    leadOkF (l1 ++ l2) ↔ leadOkF l1 := by
  cases l1 with
  | nil => exact absurd rfl h
  | cons a t => exact Iff.rfl

theorem trimLeadF_id : ∀ (l : List HNode), leadOkF l → trimLeadF l = l
  | [] => fun _ => rfl
  | .text s :: rest => by
    intro h
    obtain ⟨hne, hh⟩ := h
    have hdrop : s.data.dropWhile isTrimWs = s.data :=
      dropWhile_eq_self_of_head s.data hh
    have e : trimLeadF (HNode.text s :: rest) =
        if s.data.dropWhile isTrimWs = [] then trimLeadF rest
        else HNode.text ⟨s.data.dropWhile isTrimWs⟩ :: rest := rfl
    rw [e, hdrop, if_neg hne]
  | .elem t a c :: rest => fun _ => rfl

theorem trimTrailFAux_id :
    ∀ (r : List HNode), trailOkR r → trimTrailFAux r = r
  | [] => fun _ => rfl
  | .text s :: rest => by
    intro h
    obtain ⟨hne, hh⟩ := h
    have hdrop : s.data.reverse.dropWhile isTrimWs = s.data.reverse :=
      dropWhile_eq_self_of_head s.data.reverse hh
    have e : trimTrailFAux (HNode.text s :: rest) =
        if (s.data.reverse.dropWhile isTrimWs).reverse = [] then
          trimTrailFAux rest
        else HNode.text ⟨(s.data.reverse.dropWhile isTrimWs).reverse⟩ ::
          rest := rfl
    rw [e, hdrop, List.reverse_reverse, if_neg hne]
  | .elem t a c :: rest => fun _ => rfl

theorem trimLeadF_leadOk : ∀ (l : List HNode), leadOkF (trimLeadF l)
  | [] => trivial
  | .text s :: rest => by
    have e : trimLeadF (HNode.text s :: rest) =
        if s.data.dropWhile isTrimWs = [] then trimLeadF rest
        else HNode.text ⟨s.data.dropWhile isTrimWs⟩ :: rest := rfl
    by_cases hd : s.data.dropWhile isTrimWs = []
    · rw [e, if_pos hd]
      exact trimLeadF_leadOk rest
    · rw [e, if_neg hd]
      exact ⟨hd, head_dropWhile_false s.data⟩
  | .elem t a c :: rest => trivial

theorem trimTrailFAux_trailOk :
    ∀ (r : List HNode), trailOkR (trimTrailFAux r)
  | [] => trivial
  | .text s :: rest => by
    have e : trimTrailFAux (HNode.text s :: rest) =
        if (s.data.reverse.dropWhile isTrimWs).reverse = [] then
          trimTrailFAux rest
        else HNode.text ⟨(s.data.reverse.dropWhile isTrimWs).reverse⟩ ::
          rest := rfl
    by_cases hd : (s.data.reverse.dropWhile isTrimWs).reverse = []
    · rw [e, if_pos hd]
      exact trimTrailFAux_trailOk rest
    · rw [e, if_neg hd]
      refine ⟨hd, ?_⟩
      rw [List.reverse_reverse]
      exact head_dropWhile_false s.data.reverse
  | .elem t a c :: rest => trivial

theorem trimTrailFAux_leadOk :
    ∀ (r : List HNode), leadOkF r.reverse →
      leadOkF (trimTrailFAux r).reverse
  | [] => fun _ => trivial
  | [HNode.text s] => by
    intro h
    obtain ⟨hne, hh⟩ := h
    have e : trimTrailFAux [HNode.text s] =
        if (s.data.reverse.dropWhile isTrimWs).reverse = [] then
          trimTrailFAux ([] : List HNode)
        else
          [HNode.text ⟨(s.data.reverse.dropWhile isTrimWs).reverse⟩] := rfl
    obtain ⟨c, cs, hcs⟩ : ∃ c cs, s.data = c :: cs := by
      cases hx : s.data with
      | nil => exact absurd hx hne
      | cons c cs => exact ⟨c, cs, rfl⟩
    have hcw : isTrimWs c = false := hh c (by rw [hcs]; rfl)
    have hdw : s.data.reverse.dropWhile isTrimWs ≠ [] :=
      mem_false_dropWhile_ne_nil hcw s.data.reverse
        (List.mem_reverse.mpr (by rw [hcs]; exact List.mem_cons_self _ _))
    have hd : ¬((s.data.reverse.dropWhile isTrimWs).reverse = []) := by
      intro hcon
      exact hdw (by simpa using congrArg List.reverse hcon)
    rw [e, if_neg hd]
    refine ⟨hd, ?_⟩
    have hsplit := List.takeWhile_append_dropWhile
      (p := isTrimWs) (l := s.data.reverse)
    have hdata : (s.data.reverse.dropWhile isTrimWs).reverse ++
        (s.data.reverse.takeWhile isTrimWs).reverse = s.data := by
      have h2 := congrArg List.reverse hsplit
      rw [List.reverse_append, List.reverse_reverse] at h2
      exact h2
    intro x hx
    apply hh
    rw [← hdata,
      head?_append_left _ _ (by
        intro hcon
        exact hdw (by simpa using congrArg List.reverse hcon))]
    exact hx
  | [HNode.elem t a c] => fun h => h
  | n :: m :: rest => by
    intro h
    have hrev : (m :: rest).reverse ≠ [] := by simp
    have hh : leadOkF (m :: rest).reverse := by
      have h2 : leadOkF ((m :: rest).reverse ++ [n]) := by
        rw [← List.reverse_cons]; exact h
      exact (leadOkF_append _ _ hrev).mp h2
    cases n with
    | elem t a c =>
      have e : trimTrailFAux (HNode.elem t a c :: m :: rest) =
          HNode.elem t a c :: m :: rest := rfl
      rw [e]
      exact h
    | text s =>
      have e : trimTrailFAux (HNode.text s :: m :: rest) =
          if (s.data.reverse.dropWhile isTrimWs).reverse = [] then
            trimTrailFAux (m :: rest)
          else HNode.text ⟨(s.data.reverse.dropWhile isTrimWs).reverse⟩ ::
            m :: rest := rfl
      by_cases hd : (s.data.reverse.dropWhile isTrimWs).reverse = []
      · rw [e, if_pos hd]
        exact trimTrailFAux_leadOk (m :: rest) hh
      · rw [e, if_neg hd, List.reverse_cons]
        exact (leadOkF_append _ _ hrev).mpr hh

theorem trimEndsF_leadOk (l : List HNode) : leadOkF (trimEndsF l) := by
  rw [trimEndsF]
  exact trimTrailFAux_leadOk _ (by
    rw [List.reverse_reverse]; exact trimLeadF_leadOk l)

theorem trimEndsF_trailOk (l : List HNode) :
    trailOkR (trimEndsF l).reverse := by
  rw [trimEndsF, List.reverse_reverse]
  exact trimTrailFAux_trailOk _

theorem trimEndsF_idem (l : List HNode) :
    trimEndsF (trimEndsF l) = trimEndsF l := by
  have h1 : trimLeadF (trimEndsF l) = trimEndsF l :=
    trimLeadF_id _ (trimEndsF_leadOk l)
  have h2 : trimTrailFAux (trimEndsF l).reverse = (trimEndsF l).reverse :=
    trimTrailFAux_id _ (trimEndsF_trailOk l)
  calc trimEndsF (trimEndsF l)
      = (trimTrailFAux (trimLeadF (trimEndsF l)).reverse).reverse := rfl
    _ = (trimTrailFAux (trimEndsF l).reverse).reverse := by rw [h1]
    _ = (trimEndsF l).reverse.reverse := by rw [h2]
    _ = trimEndsF l := List.reverse_reverse _

/-! ### Stage F: the dash pass commutes with trimming and is idempotent -/

theorem isTrimWs_dashFix (c : Char) : isTrimWs (dashFix c) = isTrimWs c := by
  by_cases h : isDashChar c = true
  · have h2 : isTrimWs c = false := by
      by_contra hcon
      rw [Bool.not_eq_false] at hcon
      rw [isTrimWs, Bool.and_eq_true] at hcon
      have hjs := hcon.1
      simp only [isDashChar, Bool.or_eq_true, decide_eq_true_eq] at h
      simp only [isJsWs, Bool.or_eq_true, Bool.and_eq_true,
        decide_eq_true_eq] at hjs
      omega
    rw [dashFix, if_pos h, h2]
    decide
  · rw [dashFix, if_neg h]

theorem dropWhile_map_dashFix :
    ∀ (l : List Char),
      (l.map dashFix).dropWhile isTrimWs =
        (l.dropWhile isTrimWs).map dashFix := by
  intro l
  induction l with
  | nil => rfl
  | cons a t ih =>
    by_cases hp : isTrimWs a = true
    · rw [List.map_cons,
        List.dropWhile_cons_of_pos (by rw [isTrimWs_dashFix]; exact hp),
        List.dropWhile_cons_of_pos hp, ih]
    · rw [List.map_cons,
        List.dropWhile_cons_of_neg (by rw [isTrimWs_dashFix]; exact hp),
        List.dropWhile_cons_of_neg hp, List.map_cons]

theorem normalizeDashes_data (s : String) :
    (normalizeDashes s).data = s.data.map dashFix := rfl

theorem trimLeadF_dash :
    ∀ (l : List HNode), trimLeadF (dashFixF l) = dashFixF (trimLeadF l)
  | [] => rfl
  | .text s :: rest => by
    have e1 : dashFixF (HNode.text s :: rest) =
        HNode.text (normalizeDashes s) :: dashFixF rest := rfl
    have e2 : trimLeadF (HNode.text (normalizeDashes s) :: dashFixF rest) =
        if (normalizeDashes s).data.dropWhile isTrimWs = [] then
          trimLeadF (dashFixF rest)
        else HNode.text ⟨(normalizeDashes s).data.dropWhile isTrimWs⟩ ::
          dashFixF rest := rfl
    have e3 : trimLeadF (HNode.text s :: rest) =
        if s.data.dropWhile isTrimWs = [] then trimLeadF rest
        else HNode.text ⟨s.data.dropWhile isTrimWs⟩ :: rest := rfl
    have e4 : (normalizeDashes s).data.dropWhile isTrimWs =
        (s.data.dropWhile isTrimWs).map dashFix := by
      rw [normalizeDashes_data, dropWhile_map_dashFix]
    by_cases hd : s.data.dropWhile isTrimWs = []
    · rw [e1, e2, e4, hd, e3, if_pos hd]
      rw [show (([] : List Char).map dashFix = []) from rfl, if_pos rfl]
      exact trimLeadF_dash rest
    · rw [e1, e2, e4, e3, if_neg hd,
        if_neg (by simpa using hd)]
      rfl
  | .elem t a c :: rest => rfl

theorem trimTrailFAux_dash :
    ∀ (r : List HNode),
      trimTrailFAux (dashFixF r) = dashFixF (trimTrailFAux r)
  | [] => rfl
  | .text s :: rest => by
    have e1 : dashFixF (HNode.text s :: rest) =
        HNode.text (normalizeDashes s) :: dashFixF rest := rfl
    have e2 : trimTrailFAux
          (HNode.text (normalizeDashes s) :: dashFixF rest) =
        if ((normalizeDashes s).data.reverse.dropWhile
            isTrimWs).reverse = [] then
          trimTrailFAux (dashFixF rest)
        else HNode.text ⟨((normalizeDashes s).data.reverse.dropWhile
            isTrimWs).reverse⟩ :: dashFixF rest := rfl
    have e3 : trimTrailFAux (HNode.text s :: rest) =
        if (s.data.reverse.dropWhile isTrimWs).reverse = [] then
          trimTrailFAux rest
        else HNode.text ⟨(s.data.reverse.dropWhile isTrimWs).reverse⟩ ::
          rest := rfl
    have e4 : ((normalizeDashes s).data.reverse.dropWhile
        isTrimWs).reverse =
        ((s.data.reverse.dropWhile isTrimWs).reverse).map dashFix := by
      rw [normalizeDashes_data, ← List.map_reverse, dropWhile_map_dashFix,
        List.map_reverse]
    by_cases hd : (s.data.reverse.dropWhile isTrimWs).reverse = []
    · rw [e1, e2, e4, hd, e3, if_pos hd]
      rw [show (([] : List Char).map dashFix = []) from rfl, if_pos rfl]
      exact trimTrailFAux_dash rest
    · rw [e1, e2, e4, e3, if_neg hd,
        if_neg (by simpa using hd)]
      rfl
  | .elem t a c :: rest => rfl

theorem dashFixF_eq_map :
    ∀ (l : List HNode), dashFixF l = l.map dashFixN
  | [] => rfl
  | n :: ns => by rw [dashFixF, dashFixF_eq_map ns, List.map_cons]

theorem dashFixF_reverse (l : List HNode) :
    dashFixF l.reverse = (dashFixF l).reverse := by
  rw [dashFixF_eq_map, dashFixF_eq_map, List.map_reverse]

theorem trimEndsF_dash (l : List HNode) :
    trimEndsF (dashFixF l) = dashFixF (trimEndsF l) := by
  calc trimEndsF (dashFixF l)
      = (trimTrailFAux (trimLeadF (dashFixF l)).reverse).reverse := rfl
    _ = (trimTrailFAux (dashFixF (trimLeadF l)).reverse).reverse := by
        rw [trimLeadF_dash]
    _ = (trimTrailFAux (dashFixF (trimLeadF l).reverse)).reverse := by
        rw [dashFixF_reverse]
    _ = (dashFixF (trimTrailFAux (trimLeadF l).reverse)).reverse := by
        rw [trimTrailFAux_dash]
    _ = dashFixF (trimTrailFAux (trimLeadF l).reverse).reverse := by
        rw [dashFixF_reverse]
    _ = dashFixF (trimEndsF l) := rfl

theorem normalizeDashes_idem (s : String) :
    normalizeDashes (normalizeDashes s) = normalizeDashes s :=
  normalizeDashes_fixed (fun c hc => normalizeDashesL_no_dash s.data c hc)

theorem dashPair_idem (p : String × String) :
    dashPair (dashPair p) = dashPair p := by
  rw [dashPair, dashPair]
  simp only
  rw [normalizeDashes_idem, normalizeDashes_idem]

mutual

theorem dashFixN_idem : ∀ (n : HNode), dashFixN (dashFixN n) = dashFixN n
  | .text s => by
    rw [show dashFixN (HNode.text s) =
      HNode.text (normalizeDashes s) from rfl]
    rw [show dashFixN (HNode.text (normalizeDashes s)) =
      HNode.text (normalizeDashes (normalizeDashes s)) from rfl]
    rw [normalizeDashes_idem]
  | .elem t a c => by
    rw [show dashFixN (HNode.elem t a c) =
      HNode.elem t (a.map dashPair) (dashFixF c) from rfl]
    rw [show dashFixN (HNode.elem t (a.map dashPair) (dashFixF c)) =
      HNode.elem t ((a.map dashPair).map dashPair)
        (dashFixF (dashFixF c)) from rfl]
    rw [List.map_map, dashFixF_idem c]
    exact congrArg (fun x => HNode.elem t x (dashFixF c))
      (List.map_congr_left (fun p _ => dashPair_idem p))

theorem dashFixF_idem : ∀ (l : List HNode), dashFixF (dashFixF l) = dashFixF l
  | [] => rfl
  | n :: ns => by
    rw [show dashFixF (n :: ns) = dashFixN n :: dashFixF ns from rfl,
      show dashFixF (dashFixN n :: dashFixF ns) =
        dashFixN (dashFixN n) :: dashFixF (dashFixF ns) from rfl,
      dashFixN_idem n, dashFixF_idem ns]

end

/-! ### Stage G: the clean invariant and full idempotence -/

theorem dashFixF_clean (style : String)
    (hstyle : ∀ c ∈ style.data, isDashChar c = false) (l : List HNode)
    (h : ∀ e ∈ elemsOfF l, SanCleanE style e) :
    ∀ e ∈ elemsOfF (dashFixF l), SanCleanE style e := by
  intro e he
  obtain ⟨tag, attrs, children, rfl, hm⟩ := dashFixF_elems l e he
  have hs := h _ hm
  refine ⟨hs.1, ?_⟩
  intro ha
  exact canonAttrs_map_dash style hstyle attrs (hs.2 ha)

theorem sanitizeInlineF_clean (style : String)
    (hstyle : ∀ c ∈ style.data, isDashChar c = false) (ns : List HNode) :
    ∀ e ∈ elemsOfF (sanitizeInlineF style ns), SanCleanE style e := by
  intro e he
  exact dashFixF_clean style hstyle _
    (fun e2 he2 => sanitizeForest_cleanF style ns e2
      ((trimEndsF_elems_mem e2 _).mp he2)) e he

theorem sanitizeInlineF_idem (style : String)
    (hstyle : ∀ c ∈ style.data, isDashChar c = false) (ns : List HNode) :
    sanitizeInlineF style (sanitizeInlineF style ns) =
      sanitizeInlineF style ns := by
  have hclean := sanitizeInlineF_clean style hstyle ns
  have h1 : rewriteAnchorsF style (sanitizeInlineF style ns) =
      sanitizeInlineF style ns :=
    rewriteAnchors_idF style _ hclean
  have h2 : stripDisallowedF (sanitizeInlineF style ns) =
      sanitizeInlineF style ns :=
    stripDisallowed_idF _ (fun e he => (hclean e he).1)
  calc sanitizeInlineF style (sanitizeInlineF style ns)
      = dashFixF (trimEndsF (stripDisallowedF
          (rewriteAnchorsF style (sanitizeInlineF style ns)))) := rfl
    _ = dashFixF (trimEndsF (sanitizeInlineF style ns)) := by
        rw [h1, h2]
    _ = dashFixF (trimEndsF (dashFixF
          (trimEndsF (sanitizeForest style ns)))) := rfl
    _ = dashFixF (dashFixF (trimEndsF
          (trimEndsF (sanitizeForest style ns)))) := by
        rw [trimEndsF_dash]
    _ = dashFixF (dashFixF (trimEndsF (sanitizeForest style ns))) := by
        rw [trimEndsF_idem]
    _ = dashFixF (trimEndsF (sanitizeForest style ns)) :=
        dashFixF_idem _
    _ = sanitizeInlineF style ns := rfl

/-- C5: inline sanitization is idempotent — for every fragment (forest)
`ns`, running `sanitizeInlineHtml` (modelled by `sanitizeInlineF` at the
fixed anchor style of `build.js`, and `sanitizeInlineHtmlLondon` at the
London anchor style) on an already-sanitized fragment returns it
unchanged, so style attributes do not accumulate across repeated
passes. -/
theorem sanitizeInline_idempotent :
    (∀ ns : List HNode,
      sanitizeInlineF psAnchorStyle (sanitizeInlineF psAnchorStyle ns) =
        sanitizeInlineF psAnchorStyle ns) ∧
    (∀ ns : List HNode,
      sanitizeInlineF londonAnchorStyle
          (sanitizeInlineF londonAnchorStyle ns) =
        sanitizeInlineF londonAnchorStyle ns) :=
  ⟨fun ns => sanitizeInlineF_idem psAnchorStyle (by decide) ns,
   fun ns => sanitizeInlineF_idem londonAnchorStyle (by decide) ns⟩

/-! ## Missing-section tolerance (C6) -/

/-- JavaScript `String.prototype.trim` on the string model. -/
def jsTrim (s : String) : String := ⟨trimL s.data⟩

/-- The fixed spotlight header block of `getSpotlightHeaderMjml`
(`build.js` lines 347-369), with the trailing `.trim()` applied to the
template literal. -/
def getSpotlightHeaderMjml : String :=
  "<mj-text\n  padding=\"16px 12px 10px 12px\"\n  font-family=\"TNYAdobeCaslonPro, \x27Times New Roman\x27, serif;\"\n  color=\"white\"\n>\n  <h2\n    style=\"\n      padding-bottom: 8px;\n      color: #4d3060;\n      text-align: left;\n      border-bottom: 2px solid #4d3060;\n\n      font-size: 26px;\n      line-height: 1.2;\n      font-weight: 400;\n    \"\n  >\n    Spotlight\n  </h2>\n</mj-text>"

/-- The renderer `renderSpotlightSections` (`build.js` lines 313-345):
empty topics short-circuit to the empty string; otherwise each topic
substitutes the header token (the spotlight header block for the first
topic, a spacer for the rest) and the topic token in the section
template, trims, and the results are joined with a spacer separator.
`sectionTpl` is the template file read at run time and `renderTopic`
abstracts `renderSpotlightTopic`, whose MJML output fills the topic
token. -/
def renderSpotlightSections (sectionTpl : String)
    (renderTopic : Story → String) (topics : List Story) : String :=
  if topics.isEmpty then ""
  else
    String.intercalate "\n\n<mj-spacer height=\"10px\" />\n\n"
      (topics.enum.map (fun p =>
        jsTrim (replaceToken "SPOTLIGHT_TOPIC" (renderTopic p.2)
          (replaceToken "SPOTLIGHT_HEADER"
            (if p.1 = 0 then getSpotlightHeaderMjml
             else "<mj-spacer height=\"10px\" />") sectionTpl))))

theorem findMarkerSplit?_none (p : HNode → Bool) :
    ∀ (doc : List HNode), (∀ n ∈ doc, p n = false) →
      findMarkerSplit? p doc = none
  | [] => fun _ => rfl
  | n :: rest => fun h => by
    rw [findMarkerSplit?,
      if_neg (by simp [h n (List.mem_cons_self _ _)]),
      findMarkerSplit?_none p rest
        (fun m hm => h m (List.mem_cons_of_mem _ hm))]

/-- C6: a document none of whose sibling nodes is the spotlight marker
(an `h2` reading "spotlight") makes `extractSpotlightTopics` return the
empty list — no error; `renderSpotlightSections` renders the empty
topic list to the empty string; and substituting the
`SPOTLIGHT_SECTIONS` placeholder with that empty string deletes the
placeholder from the layout, leaving the surrounding text untouched, so
the missing section is simply omitted. -/
theorem missingSection_tolerated :
    (∀ doc : List HNode,
        (∀ n ∈ doc, isMarkerWith ["spotlight"] n = false) →
        extractSpotlightTopics doc = []) ∧
    (∀ (sectionTpl : String) (renderTopic : Story → String),
        renderSpotlightSections sectionTpl renderTopic [] = "") ∧
    (∀ (s₁ s₂ w1 w2 : List Char),
        allWsL w1 = true → allWsL w2 = true →
        cleanBefore "SPOTLIGHT_SECTIONS" s₁
          (tokenOf "SPOTLIGHT_SECTIONS" w1 w2 ++ s₂) = true →
        cleanBefore "SPOTLIGHT_SECTIONS" s₂ [] = true →
        replaceToken "SPOTLIGHT_SECTIONS" ""
            ⟨s₁ ++ (tokenOf "SPOTLIGHT_SECTIONS" w1 w2 ++ s₂)⟩ =
          ⟨s₁ ++ s₂⟩) := by
  refine ⟨?_, ?_, ?_⟩
  · intro doc h
    rw [extractSpotlightTopics,
      findMarkerSplit?_none (isMarkerWith ["spotlight"]) doc h]
  · intro sectionTpl renderTopic
    rfl
  · intro s₁ s₂ w1 w2 hw1 hw2 h₁ h₂
    have h := substTok_one "SPOTLIGHT_SECTIONS" [] s₁ s₂ w1 w2
      (by decide) hw1 hw2 h₁ h₂ rfl
    rw [List.nil_append] at h
    calc replaceToken "SPOTLIGHT_SECTIONS" ""
          ⟨s₁ ++ (tokenOf "SPOTLIGHT_SECTIONS" w1 w2 ++ s₂)⟩
        = ⟨substTokGo "SPOTLIGHT_SECTIONS" [] []
            (s₁ ++ (tokenOf "SPOTLIGHT_SECTIONS" w1 w2 ++ s₂)) 0⟩ := rfl
      _ = ⟨s₁ ++ s₂⟩ := congrArg String.mk h

/-- Witness for C6 at a concrete document, template and layout: an
`h2` reading "News" is not the spotlight marker, the empty topic list
renders to `""`, and the placeholder disappears from `a...b`. -/
theorem missingSection_witness :
    extractSpotlightTopics
        [HNode.elem "h2" [] [HNode.text "News"], HNode.text "x"] = [] ∧
    renderSpotlightSections "tpl" (fun _ => "oops") [] = "" ∧
    replaceToken "SPOTLIGHT_SECTIONS" ""
        ⟨"a".data ++ (tokenOf "SPOTLIGHT_SECTIONS" [] [] ++ "b".data)⟩ =
      ⟨"a".data ++ "b".data⟩ :=
  ⟨missingSection_tolerated.1 _ (by decide),
   missingSection_tolerated.2.1 "tpl" (fun _ => "oops"),
   missingSection_tolerated.2.2 "a".data "b".data [] []
     (by decide) (by decide) (by decide) (by decide)⟩

end ETA
